import Mathlib

/-!
Shallow embedding of the constraint-resolution engine of the
`design-by-contract` repository and proofs about the specified properties.

Modelled source files:
* `src/design_by_contract/__init__.py` — `UnresolvedSymbol.__eq__`,
  `evaluate_annotations` and the `wrapper` closure of `contract`
  (this is the package that the repository test-suite imports);
* `src/design_by_contract/variables.py` — `Delayed.DBC_check` and `resolve`.

Modelling conventions:
* Python values appearing in contracts are modelled by the inductive `Val`
  (booleans, non-negative integers, and sequences).  Python `==` is
  `pyEq` (it equates `True`/`False` with `1`/`0` as Python does);
  `None` is represented by `Option.none` where the source uses it as the
  "unset" marker and never as an ordinary compared value.
* Python exceptions are modelled with `Except Err`; mutation of an object
  is modelled by returning the updated object.
* Deterministic zero-argument thunks (`DBC_term`) are modelled by the value
  they return, since every claim treated here concerns a single call where
  the thunk result is fixed.
* Two embeddings of the `Delayed` proxy graph are given.  The tree model
  (`Delayed`, `DBC_check`, `resolve`) embeds asserted values and children
  structurally; it is used for the per-node verdict logic and for the
  control flow of the resolver loop, which do not depend on sharing.  The
  heap model (`HNode`, `Store`, `HDBC_check`, `hresolve`) passes the
  object graph explicitly, so nodes referenced from asserted-values lists
  are shared and the append side effect that `Delayed.__eq__` performs
  inside the agreement check mutates them; it is used for the behaviour
  of repeated resolution, which that side effect can change.
-/

set_option maxRecDepth 4000

namespace DesignByContract

/-- Concrete runtime values flowing through contracts. -/
inductive Val where
  | bool (b : Bool)
  | nat (n : Nat)
  | list (l : List Val)
deriving Repr

/-- Structural boolean equality on values (used to derive decidable
equality; distinct from the Python-level `pyEq` below). -/
def Val.beq : Val → Val → Bool
  | .bool a, .bool b => a == b
  | .nat a, .nat b => a == b
  | .list a, .list b => beqList a b
  | _, _ => false
where
  /-- Elementwise structural equality of value lists. -/
  beqList : List Val → List Val → Bool
  | [], [] => true
  | a :: as, b :: bs => Val.beq a b && beqList as bs
  | _, _ => false

mutual

/-- Structural equality on values is sound and complete. -/
def Val.beq_iff : (a b : Val) → (Val.beq a b = true ↔ a = b)
  | .bool a, .bool b => by simp [Val.beq]
  | .nat a, .nat b => by simp [Val.beq]
  | .list a, .list b => by
      simpa [Val.beq] using Val.beqList_iff a b
  | .bool a, .nat b => by simp [Val.beq]
  | .bool a, .list b => by simp [Val.beq]
  | .nat a, .bool b => by simp [Val.beq]
  | .nat a, .list b => by simp [Val.beq]
  | .list a, .bool b => by simp [Val.beq]
  | .list a, .nat b => by simp [Val.beq]

/-- Structural equality on value lists is sound and complete. -/
def Val.beqList_iff : (xs ys : List Val) → (Val.beq.beqList xs ys = true ↔ xs = ys)
  | [], [] => by simp [Val.beq.beqList]
  | [], _ :: _ => by simp [Val.beq.beqList]
  | _ :: _, [] => by simp [Val.beq.beqList]
  | a :: as, b :: bs => by
      simp [Val.beq.beqList, Val.beq_iff a b, Val.beqList_iff as bs]

end

instance : DecidableEq Val := fun a b => decidable_of_iff _ (Val.beq_iff a b)

/-- Python `==` on values: structural, except that `True == 1` and
`False == 0` hold as they do in Python. -/
def pyEq : Val → Val → Bool
  | .bool a, .bool b => a == b
  | .nat a, .nat b => a == b
  | .bool a, .nat n => (if a then 1 else 0) == n
  | .nat n, .bool a => n == (if a then 1 else 0)
  | .list a, .list b => pyEqList a b
  | _, _ => false
where
  /-- Elementwise Python equality of two sequences. -/
  pyEqList : List Val → List Val → Bool
  | [], [] => true
  | a :: as, b :: bs => pyEq a b && pyEqList as bs
  | _, _ => false

/-- Python `str()` of a value, as used by the f-strings building
error messages. -/
def pyStr : Val → String
  | .bool true => "True"
  | .bool false => "False"
  | .nat n => toString n
  | .list l => "[" ++ String.intercalate ", " (pyStrList l) ++ "]"
where
  /-- String forms of the elements of a sequence. -/
  pyStrList : List Val → List String
  | [] => []
  | a :: as => pyStr a :: pyStrList as

/-- Exceptions raised by the engine.  `contractViolationError` and
`contractLogicError` come from `__init__.py`; `logicError` and the plain
`contractViolationError` messages of `variables.py` share the same shape;
`valueError` and `keyError` model the Python builtins. -/
inductive Err where
  | contractViolationError (msg : String)
  | contractLogicError (msg : String)
  | logicError (msg : String)
  | valueError (msg : String)
  | keyError (key : String)
  | recursionError
deriving Repr, DecidableEq

/-- Placeholder for unknown symbols in contracts
(`UnresolvedSymbol` dataclass of `__init__.py`). -/
structure UnresolvedSymbol where
  name : String
  value : Option Val
deriving Repr, DecidableEq

/-- The right-hand side of an overloaded `==` on a symbol: another symbol
or a concrete value. -/
inductive EqOther where
  | sym (s : UnresolvedSymbol)
  | val (v : Val)
deriving Repr, DecidableEq

/-- What `UnresolvedSymbol.__eq__` returns: the literal `True`, or `self`
(whose truthiness is `value is not None`). -/
inductive EqResult where
  | pyTrue
  | self
deriving Repr, DecidableEq

/-- Embedding of `UnresolvedSymbol.__eq__` (`__init__.py`, lines 51-71).
The result carries the returned object, the updated `self`, and the
updated other symbol when the right-hand side was a symbol.  The `match`
cases of the source are translated in order; the value pattern
`case self.value:` compares the other operand with `self.value` via
Python `==`. -/
def UnresolvedSymbol.eq (self : UnresolvedSymbol) (other : EqOther) :
    Except Err (EqResult × UnresolvedSymbol × Option UnresolvedSymbol) :=
  match other with
  | .sym o =>
    match o.value, self.value with
    | none, none =>
        .error (.contractViolationError
          ("Symbols `" ++ self.name ++ "` and `" ++ o.name ++ "` undefined"))
    | none, some v =>
        .ok (.self, self, some { o with value := some v })
    | some w, none =>
        .ok (.self, { self with value := some w }, some o)
    | some w, some v =>
        if pyEq w v then
          .ok (.pyTrue, self, some o)
        else
          .error (.contractViolationError
            ("Symbols `" ++ self.name ++ "` and `" ++ o.name ++ "` do not match: `"
              ++ pyStr v ++ "` != `" ++ pyStr w ++ "`"))
  | .val w =>
    match self.value with
    | none => .ok (.self, { self with value := some w }, none)
    | some v =>
        if pyEq w v then
          .ok (.pyTrue, self, none)
        else
          .error (.contractViolationError
            ("Symbols `" ++ self.name ++ "` and `" ++ pyStr w ++ "` do not match: `"
              ++ pyStr v ++ "` != `" ++ pyStr w ++ "`"))

/-- Return type when checking conditions (`TenaryReturn` enum of
`variables.py`, keeping the source spelling). -/
inductive TenaryReturn where
  | VALID
  | INVALID
  | UNRESOLVED
deriving Repr, DecidableEq

mutual

/-- Deferred-expression proxy (`Delayed` dataclass of `variables.py`).
`DBC_term` is the optional root thunk, modelled by the value it returns;
`DBC_values` is the asserted-values list, whose elements may themselves be
`Delayed` objects; `DBC_children` are the chained operations. -/
inductive Delayed where
  | mk (DBC_name : String) (DBC_term : Option Val) (DBC_terminal : Bool)
       (DBC_values : List DEntry) (DBC_children : List Delayed)

/-- An element of a `DBC_values` list: a plain value or a `Delayed`. -/
inductive DEntry where
  | val (v : Val)
  | node (d : Delayed)

end

/-- Name of a node. -/
def Delayed.DBC_name : Delayed → String
  | .mk n _ _ _ _ => n

/-- Root thunk of a node (modelled by its result value). -/
def Delayed.DBC_term : Delayed → Option Val
  | .mk _ t _ _ _ => t

/-- Terminal flag of a node. -/
def Delayed.DBC_terminal : Delayed → Bool
  | .mk _ _ f _ _ => f

/-- Asserted values of a node. -/
def Delayed.DBC_values : Delayed → List DEntry
  | .mk _ _ _ v _ => v

/-- Children of a node. -/
def Delayed.DBC_children : Delayed → List Delayed
  | .mk _ _ _ _ c => c

/-- Tests the generator filter of the first guard of `DBC_check`:
`isinstance(i, Delayed) and len(i.DBC_values) == 0`. -/
def DEntry.isPendingNode : DEntry → Bool
  | .node (.mk _ _ _ [] _) => true
  | _ => false

/-- The mapping `i.DBC_values[0] if isinstance(i, Delayed) else i`
performed on every asserted value before the agreement check.  The
default for the (unreachable) empty case is arbitrary: the guard of
`DBC_check` has already returned `UNRESOLVED` when a nested node has an
empty values list. -/
def DEntry.resolved : DEntry → DEntry
  | .val v => .val v
  | .node (.mk _ _ _ vs _) => vs.headD (.val (.bool false))

/-- Python `==` between two mapped asserted values.  When either side is
a `Delayed`, `Delayed.__eq__` (or its reflected form) runs, appends the
operand and returns the literal `True`. -/
def DEntry.pyEqEntry : DEntry → DEntry → Bool
  | .val a, .val b => pyEq a b
  | _, _ => true

/-- The check `all(i == values[0] for i in values)` over the mapped
asserted values. -/
def valuesAgree (values : List DEntry) : Bool :=
  match values.map DEntry.resolved with
  | [] => true
  | v :: rest => (v :: rest).all (fun i => DEntry.pyEqEntry i v)

/-- The state of `self.DBC_values` after the conditional
`self.DBC_values.append(self.DBC_term())`. -/
def valuesAfterTerm (term : Option Val) (values : List DEntry) : List DEntry :=
  match term with
  | some t => values ++ [.val t]
  | none => values

/-- Python `is False` on a raw asserted value: only the boolean `False`
object satisfies it. -/
def DEntry.isPyFalse : DEntry → Bool
  | .val (.bool false) => true
  | _ => false

/-- String the f-string `{values}` produces for the mapped values list in
the ambiguity message.  A nested `Delayed` would print its dataclass
`repr`; it is abbreviated here and never hit by the concrete inputs used
below. -/
def mappedValuesStr (values : List DEntry) : String :=
  "[" ++ String.intercalate ", "
    ((values.map DEntry.resolved).map (fun e =>
      match e with
      | .val v => pyStr v
      | .node d => "Delayed(name=" ++ d.DBC_name ++ ", ...)")) ++ "]"

mutual

/-- Embedding of `Delayed.DBC_check` (`variables.py`, lines 39-87).
Mutation of `DBC_values` (the term append) and of the children is
modelled by returning the updated node next to the tri-state verdict;
raised exceptions are `Except.error`. -/
def Delayed.DBC_check : Delayed → Bool → Except Err (TenaryReturn × Delayed)
  | .mk name term terminal values children, raise_errors =>
    if values.any DEntry.isPendingNode then
      .ok (.UNRESOLVED, .mk name term terminal values children)
    else if term.isNone && values.isEmpty then
      .error (.logicError ("Variable not set `" ++ name ++ "`"))
    else
      let values2 := valuesAfterTerm term values
      if !valuesAgree values2 then
        if raise_errors then
          .error (.contractViolationError
            ("Ambiguity in variable `" ++ name ++ "`: " ++ mappedValuesStr values2))
        else
          .ok (.INVALID, .mk name term terminal values2 children)
      else if !children.isEmpty then
        if terminal then
          .error (.logicError
            "Please dont compare teminals! `\x7bself.DBC_name\x7d`: \x7bself.DBC_values\x7d")
        else
          match DBC_checkList children raise_errors with
          | .error e => .error e
          | .ok (returns, children2) =>
            if returns.all (· == .VALID) then
              .ok (.VALID, .mk name term terminal values2 children2)
            else if returns.any (· == .UNRESOLVED) then
              .ok (.UNRESOLVED, .mk name term terminal values2 children2)
            else
              .ok (.INVALID, .mk name term terminal values2 children2)
      else if (values2.headD (.val (.bool true))).isPyFalse then
        if raise_errors then
          .error (.contractViolationError ("Violation `" ++ name ++ "`"))
        else
          .ok (.INVALID, .mk name term terminal values2 children)
      else
        .ok (.VALID, .mk name term terminal values2 children)

/-- The children pass `[i.DBC_check(raise_errors) for i in self.DBC_children]`:
left to right, stopping at the first raised exception. -/
def DBC_checkList : List Delayed → Bool → Except Err (List TenaryReturn × List Delayed)
  | [], _ => .ok ([], [])
  | d :: rest, raise_errors =>
    match d.DBC_check raise_errors with
    | .error e => .error e
    | .ok (r, d2) =>
      match DBC_checkList rest raise_errors with
      | .error e => .error e
      | .ok (rs, rest2) => .ok (r :: rs, d2 :: rest2)

end

/-- One state of the `while` loop of `resolve` (`variables.py`,
lines 153-164), indexed by the number of check passes the loop may still
perform.  The source counts upward with `while (iterations := iterations + 1) < 100`
and raises when `iterations >= 100`, so at most 99 passes run before the
cap error; `resolve` below enters with 99 remaining passes. -/
def resolveAux (raise_errors : Bool) : List Delayed → Nat → Except Err Bool
  | _, 0 => .error (.logicError "colud not resolve all variables")
  | vars, fuel + 1 =>
    match DBC_checkList vars raise_errors with
    | .error e => .error e
    | .ok (check_results, vars2) =>
      if check_results.all (· ≠ .UNRESOLVED) then
        .ok (check_results.all (· == .VALID))
      else
        resolveAux raise_errors vars2 fuel

/-- Embedding of `resolve` (`variables.py`, lines 153-164). -/
def resolve (vars : List Delayed) (raise_errors : Bool) : Except Err Bool :=
  resolveAux raise_errors vars 99

/-- Result list and state after `k + 1` full check passes over a node
set, used to state properties of the fixpoint loop. -/
def iterateChecks (raise_errors : Bool) : List Delayed → Nat → Except Err (List TenaryReturn × List Delayed)
  | vars, 0 => DBC_checkList vars raise_errors
  | vars, k + 1 =>
    match DBC_checkList vars raise_errors with
    | .error e => .error e
    | .ok (_, vars2) => iterateChecks raise_errors vars2 k

/-- The `injectables` dictionary: insertion-ordered mapping from logical
name to value, as a Python `dict` is. -/
def Env := List (String × Val)

/-- Lookup in an `Env` (Python `d[k]` / `k in d`). -/
def envLookup : Env → String → Option Val
  | [], _ => none
  | (k2, v) :: rest, k => if k2 == k then some v else envLookup rest k

/-- Python `d[k] = v`: update in place when the key exists, append
otherwise. -/
def envInsert : Env → String → Val → Env
  | [], k, v => [(k, v)]
  | (k2, v2) :: rest, k, v =>
    if k2 == k then (k, v) :: rest else (k2, v2) :: envInsert rest k v

/-- Python `d |= d2` for a value dictionary. -/
def envMergeVals (env : Env) : List (String × Val) → Env
  | [] => env
  | (k, v) :: rest => envMergeVals (envInsert env k v) rest

/-- An actual argument handed to a predicate: a concrete value from
`injectables`, or a fresh `UnresolvedSymbol` carrying the given name. -/
inductive CallArg where
  | val (v : Val)
  | sym (name : String)
deriving Repr, DecidableEq

/-- Observable outcome of invoking a user predicate: the truthiness of
the returned object, and the final value of each fresh symbol the
predicate was handed (the mutation its `==` calls performed). -/
structure RunResult where
  truthy : Bool
  syms : List (String × Option Val)
deriving Repr, DecidableEq

/-- A callable entry of an `Annotated` metadata list: its formal argument
names (`getfullargspec(meta).args`) and its behaviour. -/
structure MetaCallable where
  args : List String
  run : List CallArg → Except Err RunResult

/-- One metadata entry of an `Annotated` hint; non-callables are skipped
by the engine. -/
inductive MetaEntry where
  | callable (m : MetaCallable)
  | notCallable

/-- One annotation value: `metadata = none` models a plain hint without
`__metadata__`. -/
structure Annot where
  metadata : Option (List MetaEntry)

/-- Formal argument names that are missing from the environment:
`set(meta_args) - set(injectables.keys())`.  A Python `str` set iterates
in hash order; first-occurrence order is used here, which only affects
dictionary insertion order. -/
def freshNames (env : Env) (args : List String) : List String :=
  (args.filter (fun a => (envLookup env a).isNone)).dedup

/-- The argument list `[(symbols | injectables)[i] for i in meta_args]`:
an environment value when present, otherwise the fresh symbol of that
name.  When no name is missing this coincides with
`[injectables[i] for i in meta_args]`. -/
def callArgsOf (env : Env) (args : List String) : List CallArg :=
  args.map (fun a =>
    match envLookup env a with
    | some v => CallArg.val v
    | none => CallArg.sym a)

/-- Final value of one fresh symbol after the predicate call. -/
def lookupSymVal (syms : List (String × Option Val)) (n : String) : Option Val :=
  match syms.lookup n with
  | some (some v) => some v
  | _ => none

/-- The `symbols` dictionary as it stands after the predicate call: each
fresh name paired with the value its symbol acquired (or `none`). -/
def postSymbols (r : RunResult) (fresh : List String) : List (String × Option Val) :=
  fresh.map (fun n => (n, lookupSymVal r.syms n))

/-- The dictionary `\x7bk: v.value for k, v in symbols.items()\x7d` merged into
`injectables`; only reached when every symbol is bound, so dropping the
`none` entries is faithful. -/
def postBindings (r : RunResult) (fresh : List String) : List (String × Val) :=
  (postSymbols r fresh).filterMap (fun p => p.2.map (fun w => (p.1, w)))

/-- Python `repr` of one mutated `UnresolvedSymbol`. -/
def symbolRepr (n : String) (v : Option Val) : String :=
  "UnresolvedSymbol(name=\x27" ++ n ++ "\x27, value="
    ++ (match v with | none => "None" | some w => pyStr w) ++ ")"

/-- Python `str` of the `symbols` dictionary appearing in the
`ContractLogicError` message. -/
def symbolsDictRepr (syms : List (String × Option Val)) : String :=
  "\x7b" ++ String.intercalate ", "
    (syms.map (fun p => "\x27" ++ p.1 ++ "\x27: " ++ symbolRepr p.1 p.2)) ++ "\x7d"

/-- Embedding of the body of the two nested `for` loops of
`evaluate_annotations` (`__init__.py`, lines 182-224) for one callable
metadata entry `meta` attached to the slot `arg_name`: skip unless the
slot name or the reserved identifier is among the formal names; alias the
reserved identifier to the slot value; hand missing names over as fresh
symbols; raise `ContractViolationError` naming the slot when the call is
falsy; in the symbols branch raise `ContractLogicError` when a fresh
symbol is left unbound, else merge the bound values. -/
def evalMeta (reserved arg_name : String) (env : Env) (m : MetaCallable) :
    Except Err Env :=
  if arg_name ∈ m.args ∨ reserved ∈ m.args then
    match envLookup env arg_name with
    | none => .error (.keyError arg_name)
    | some v =>
      let env2 := envInsert env reserved v
      let unresolved := freshNames env2 m.args
      if unresolved.isEmpty then
        match m.run (callArgsOf env2 m.args) with
        | .error e => .error e
        | .ok r =>
          if !r.truthy then
            .error (.contractViolationError
              ("Contract violated for argument: `" ++ arg_name ++ "`"))
          else
            .ok env2
      else
        match m.run (callArgsOf env2 m.args) with
        | .error e => .error e
        | .ok r =>
          if !r.truthy then
            .error (.contractViolationError
              ("Contract violated for argument: `" ++ arg_name ++ "`"))
          else
            let post := postSymbols r unresolved
            if post.any (fun p => p.2.isNone) then
              .error (.contractLogicError
                ("Not all symbols were resolved `" ++ symbolsDictRepr post ++ "`"))
            else
              .ok (envMergeVals env2 (postBindings r unresolved))
  else
    .ok env

/-- Dispatch on `if callable(meta)`. -/
def evalMetaEntry (reserved arg_name : String) (env : Env) :
    MetaEntry → Except Err Env
  | .notCallable => .ok env
  | .callable m => evalMeta reserved arg_name env m

/-- The inner loop `for meta in annotation.__metadata__` for one slot;
a hint without `__metadata__` is skipped by the `hasattr` filter. -/
def evalSlot (reserved arg_name : String) (env : Env) :
    Option (List MetaEntry) → Except Err Env
  | none => .ok env
  | some metas => metas.foldlM (fun e me => evalMetaEntry reserved arg_name e me) env

/-- Embedding of `evaluate_annotations` (`__init__.py`, lines 176-224):
the outer loop over the slots, threading the `injectables` environment. -/
def evaluateAnnots (reserved : String) (env : Env)
    (annots : List (String × Annot)) : Except Err Env :=
  annots.foldlM (fun e p => evalSlot reserved p.1 e p.2.metadata) env

/-- A decorated function as the wrapper sees it: its annotation
dictionary (`get_annotations(func)`, possibly with a `"return"` key) and
its call behaviour on positional arguments. -/
structure ContractFunc where
  annots : List (String × Annot)
  call : List Val → Except Err Val

/-- The effect of `annotations.pop("return", None)`. -/
def popReturn (annots : List (String × Annot)) :
    Option Annot × List (String × Annot) :=
  (match annots.lookup "return" with
   | some a => some a
   | none => none,
   annots.filter (fun p => p.1 != "return"))

/-- Python `dict(zip(keys, args))`: pair up to the shorter list. -/
def zipEnv : List String → List Val → Env
  | k :: ks, v :: vs => (k, v) :: zipEnv ks vs
  | _, _ => []

/-- Embedding of the `wrapper` closure of `contract`
(`__init__.py`, lines 160-235): bypass when `evaluate` is false, else
check the reserved-identifier collision, evaluate the parameter
annotations, call the function, and evaluate the return annotation on
the result. -/
def wrapper (reserved : String) (evaluate : Bool) (func : ContractFunc)
    (args : List Val) : Except Err Val :=
  if !evaluate then
    func.call args
  else
    let pr := popReturn func.annots
    let annots2 := pr.2
    if (annots2.map Prod.fst).contains reserved then
      .error (.valueError ("Argument cannot be the reserved identifier `" ++ reserved ++ "`"))
    else
      let injectables := zipEnv (annots2.map Prod.fst) args
      match evaluateAnnots reserved injectables annots2 with
      | .error e => .error e
      | .ok env2 =>
        match func.call args with
        | .error e => .error e
        | .ok result =>
          match pr.1 with
          | none => .ok result
          | some ann =>
            let env3 := envInsert env2 "return" result
            match evaluateAnnots reserved env3 [("return", ann)] with
            | .error e => .error e
            | .ok _ => .ok result

/-! Heap-based model of the `Delayed` proxy graph.  `Delayed` objects are
shared by reference in Python: a node stored in another node's
asserted-values list is the same object, and the agreement check
`all(i == values[0] for i in values)` invokes `Delayed.__eq__` (directly
or reflected) whenever one side of a comparison is a `Delayed`, appending
the other operand to that shared node and answering `True`
(`variables.py`, lines 66 and 89-94).  The store-passing embedding below
retains both the sharing and those appends. -/

/-- Identity of a `Delayed` object in the heap model. -/
abbrev NodeId := Nat

/-- An asserted value held by a node in the heap model: a plain value or
a reference to another `Delayed` object. -/
inductive HEntry where
  | val (v : Val)
  | ref (id : NodeId)
deriving Repr, DecidableEq

/-- A `Delayed` object in the heap model; children are references. -/
structure HNode where
  DBC_name : String
  DBC_term : Option Val
  DBC_terminal : Bool
  DBC_values : List HEntry
  DBC_children : List NodeId
deriving Repr, DecidableEq

/-- The object heap: node states by identity. -/
def Store := List (NodeId × HNode)

/-- Read a node from the heap. -/
def storeGet : Store → NodeId → Option HNode
  | [], _ => none
  | (j, n) :: rest, id => if j == id then some n else storeGet rest id

/-- Replace the state of an existing node. -/
def storeSet : Store → NodeId → HNode → Store
  | [], _, _ => []
  | (j, n) :: rest, id, n2 =>
    if j == id then (j, n2) :: rest else (j, n) :: storeSet rest id n2

/-- The mutation `x.DBC_values.append(e)` on the object `id`.  A missing
identity is left untouched; references do not dangle in Python. -/
def appendValue (s : Store) (id : NodeId) (e : HEntry) : Store :=
  match storeGet s id with
  | none => s
  | some n => storeSet s id { n with DBC_values := n.DBC_values ++ [e] }

/-- The filter-and-test of the first guard of `DBC_check` in the heap
model: `isinstance(i, Delayed) and len(i.DBC_values) == 0`. -/
def pendingEntry (s : Store) : HEntry → Bool
  | .val _ => false
  | .ref j =>
    match storeGet s j with
    | some n => n.DBC_values.isEmpty
    | none => false

/-- The mapping `i.DBC_values[0] if isinstance(i, Delayed) else i` in the
heap model.  The defaults are unreachable: the pending guard has already
returned `UNRESOLVED` when a referenced node has no values, and
references do not dangle. -/
def mappedEntry (s : Store) : HEntry → HEntry
  | .val v => .val v
  | .ref j =>
    match storeGet s j with
    | some n => n.DBC_values.headD (.val (.bool false))
    | none => .val (.bool false)

/-- One comparison `i == values[0]` of the agreement check.  When the
left side is a `Delayed`, its `__eq__` appends `values[0]` to it and
returns `True`; when only the right side is a `Delayed`, the reflected
`__eq__` appends the left operand to it and returns `True`; two plain
values compare with Python `==`. -/
def agreeStep (s : Store) (i v0 : HEntry) : Bool × Store :=
  match i with
  | .ref j => (true, appendValue s j v0)
  | .val w =>
    match v0 with
    | .ref j0 => (true, appendValue s j0 (.val w))
    | .val u => (pyEq w u, s)

/-- The loop `all(i == values[0] for i in values)` over the mapped
values, with the side effect of every comparison and the left-to-right
short-circuit of `all`. -/
def agreeLoop (s : Store) (v0 : HEntry) : List HEntry → Bool × Store
  | [] => (true, s)
  | i :: rest =>
    match agreeStep s i v0 with
    | (true, s1) => agreeLoop s1 v0 rest
    | (false, s1) => (false, s1)

/-- Python `is False` on a heap asserted value. -/
def HEntry.isPyFalse : HEntry → Bool
  | .val (.bool false) => true
  | _ => false

/-- String of the mapped values list in the heap ambiguity message (a
referenced node would print its dataclass repr; abbreviated, never hit
by the concrete inputs below). -/
def hMappedStr (mapped : List HEntry) : String :=
  "[" ++ String.intercalate ", "
    (mapped.map (fun e =>
      match e with
      | .val v => pyStr v
      | .ref j => "Delayed(id=" ++ toString j ++ ", ...)")) ++ "]"

/-- The children pass `[i.DBC_check(raise_errors) for i in ...]` in the
heap model, threading the store left to right and stopping at the first
raised exception; `check1` is the one-node checker. -/
def HDBC_checkChildren
    (check1 : Store → NodeId → Except Err (TenaryReturn × Store)) :
    Store → List NodeId → Except Err (List TenaryReturn × Store)
  | s, [] => .ok ([], s)
  | s, id :: rest =>
    match check1 s id with
    | .error e => .error e
    | .ok (r, s1) =>
      match HDBC_checkChildren check1 s1 rest with
      | .error e => .error e
      | .ok (rs, s2) => .ok (r :: rs, s2)

/-- Heap-model embedding of `Delayed.DBC_check` (`variables.py`,
lines 39-87), with the object graph passed explicitly and the append
side effects of `__eq__` retained.  `fuel` bounds the recursion depth
into children as Python's recursion limit does; it is consumed only by
that recursion.  Stage order follows the source: pending guard on the
entry store, term append, mapping and agreement loop on the updated
store, children, and the final `self.DBC_values[0] is False` test on the
then-current state of the node. -/
def HDBC_check : Nat → Store → NodeId → Bool → Except Err (TenaryReturn × Store)
  | 0, _, _, _ => .error .recursionError
  | fuel + 1, s, id, raise_errors =>
    match storeGet s id with
    | none => .error (.keyError (toString id))
    | some n =>
      if n.DBC_values.any (pendingEntry s) then
        .ok (.UNRESOLVED, s)
      else if n.DBC_term.isNone && n.DBC_values.isEmpty then
        .error (.logicError ("Variable not set `" ++ n.DBC_name ++ "`"))
      else
        let s1 :=
          match n.DBC_term with
          | some t => appendValue s id (.val t)
          | none => s
        let mapped :=
          match storeGet s1 id with
          | some n1 => n1.DBC_values.map (mappedEntry s1)
          | none => []
        let ag :=
          match mapped with
          | [] => (true, s1)
          | v0 :: _ => agreeLoop s1 v0 mapped
        if !ag.1 then
          if raise_errors then
            .error (.contractViolationError
              ("Ambiguity in variable `" ++ n.DBC_name ++ "`: " ++ hMappedStr mapped))
          else
            .ok (.INVALID, ag.2)
        else if !n.DBC_children.isEmpty then
          if n.DBC_terminal then
            .error (.logicError
              "Please dont compare teminals! `\x7bself.DBC_name\x7d`: \x7bself.DBC_values\x7d")
          else
            match HDBC_checkChildren
                (fun s2 j => HDBC_check fuel s2 j raise_errors) ag.2 n.DBC_children with
            | .error e => .error e
            | .ok (returns, s3) =>
              if returns.all (· == .VALID) then
                .ok (.VALID, s3)
              else if returns.any (· == .UNRESOLVED) then
                .ok (.UNRESOLVED, s3)
              else
                .ok (.INVALID, s3)
        else
          let hd :=
            match storeGet ag.2 id with
            | some n2 => n2.DBC_values.headD (.val (.bool true))
            | none => .val (.bool true)
          if hd.isPyFalse then
            if raise_errors then
              .error (.contractViolationError ("Violation `" ++ n.DBC_name ++ "`"))
            else
              .ok (.INVALID, ag.2)
          else
            .ok (.VALID, ag.2)

/-- One pass `[i.DBC_check(raise_errors) for i in variables]` of the heap
resolver; every root call starts with the full recursion budget, as a
fresh Python call does. -/
def HDBC_checkList (fuel : Nat) (s : Store) (roots : List NodeId)
    (raise_errors : Bool) : Except Err (List TenaryReturn × Store) :=
  HDBC_checkChildren (fun s2 j => HDBC_check fuel s2 j raise_errors) s roots

/-- The `while` loop of `resolve` in the heap model, indexed by remaining
passes exactly as `resolveAux` is. -/
def hresolveAux (raise_errors : Bool) (fuel : Nat) :
    Store → List NodeId → Nat → Except Err (Bool × Store)
  | _, _, 0 => .error (.logicError "colud not resolve all variables")
  | s, roots, passes + 1 =>
    match HDBC_checkList fuel s roots raise_errors with
    | .error e => .error e
    | .ok (check_results, s2) =>
      if check_results.all (· ≠ .UNRESOLVED) then
        .ok (check_results.all (· == .VALID), s2)
      else
        hresolveAux raise_errors fuel s2 roots passes

/-- Heap-model embedding of `resolve` (`variables.py`, lines 153-164):
the boolean outcome together with the mutated object graph. -/
def hresolve (fuel : Nat) (s : Store) (roots : List NodeId)
    (raise_errors : Bool) : Except Err (Bool × Store) :=
  hresolveAux raise_errors fuel s roots 99

/-- Two successive invocations of `resolve` on the same node set, as a
caller re-invoking the resolver on the same (mutated) objects would;
returns both boolean outcomes. -/
def hresolveTwice (fuel : Nat) (s : Store) (roots : List NodeId)
    (raise_errors : Bool) : Except Err (Bool × Bool) :=
  match hresolve fuel s roots raise_errors with
  | .error e => .error e
  | .ok (b1, s1) =>
    match hresolve fuel s1 roots raise_errors with
    | .error e => .error e
    | .ok (b2, _) => .ok (b1, b2)

/-- Whether a heap asserted value is a plain value rather than a
reference. -/
def HEntry.isVal : HEntry → Bool
  | .val _ => true
  | .ref _ => false

/-- A node state whose asserted values are all plain (no reference to
another `Delayed`). -/
def HNode.valuesRefFree (n : HNode) : Bool :=
  n.DBC_values.all HEntry.isVal

/-- A heap in which no node's asserted values reference another node, so
the agreement comparisons never run `Delayed.__eq__` and checking
mutates nothing but the checked node's own term append. -/
def refFreeStore (s : Store) : Bool :=
  s.all (fun p => p.2.valuesRefFree)

/-- Python `==` between two plain mapped values; the catch-all branch is
unreachable when both operands are known to be plain. -/
def hplainEq : HEntry → HEntry → Bool
  | .val a, .val b => pyEq a b
  | _, _ => true

/-- Relation between two heap states of one node: the later state agrees
on every field except that copies of the node's term value may have been
appended to its asserted values (the only mutation checking performs on
a ref-free heap). -/
def nodeEvolved (n n2 : HNode) : Prop :=
  n2.DBC_name = n.DBC_name ∧ n2.DBC_term = n.DBC_term ∧
  n2.DBC_terminal = n.DBC_terminal ∧ n2.DBC_children = n.DBC_children ∧
  ((n.DBC_term = none ∧ n2.DBC_values = n.DBC_values) ∨
   (∃ t k, n.DBC_term = some t ∧
     n2.DBC_values = n.DBC_values ++ List.replicate k (HEntry.val t)))

/-- Pointwise extension of `nodeEvolved` to whole heaps with the same
population. -/
def storeEvolved (s s2 : Store) : Prop :=
  ∀ id, (storeGet s id = none → storeGet s2 id = none) ∧
    ∀ n, storeGet s id = some n →
      ∃ n2, storeGet s2 id = some n2 ∧ nodeEvolved n n2

/-- The boolean of the agreement check over a list of plain mapped
values: every element compares `==`-equal to the first. -/
def plainAgree (l : List HEntry) : Bool :=
  match l with
  | [] => true
  | v0 :: _ => l.all (fun i => hplainEq i v0)

/-- What one step of `HDBC_check` computes for a node of a ref-free heap,
with the store reads of the mapping, agreement and head stages resolved
against the node state: on such a heap the agreement loop performs no
appends and the only mutation is the node's own term append.  Proved
equal to `HDBC_check` under the ref-free hypothesis below; used as a
proof-side normal form, not as a second source translation. -/
def refFreeCheckForm (fuel : Nat) (s : Store) (id : NodeId) (re : Bool)
    (n : HNode) : Except Err (TenaryReturn × Store) :=
  if n.DBC_term.isNone && n.DBC_values.isEmpty then
    .error (.logicError ("Variable not set `" ++ n.DBC_name ++ "`"))
  else
    let vals1 := n.DBC_values ++
      (match n.DBC_term with | some t => [HEntry.val t] | none => [])
    let s1 := match n.DBC_term with
      | some t => appendValue s id (.val t)
      | none => s
    if !plainAgree vals1 then
      if re then
        .error (.contractViolationError
          ("Ambiguity in variable `" ++ n.DBC_name ++ "`: " ++ hMappedStr vals1))
      else
        .ok (.INVALID, s1)
    else if !n.DBC_children.isEmpty then
      if n.DBC_terminal then
        .error (.logicError
          "Please dont compare teminals! `\x7bself.DBC_name\x7d`: \x7bself.DBC_values\x7d")
      else
        match HDBC_checkChildren
            (fun s2 j => HDBC_check fuel s2 j re) s1 n.DBC_children with
        | .error e => .error e
        | .ok (returns, s3) =>
          if returns.all (· == .VALID) then
            .ok (.VALID, s3)
          else if returns.any (· == .UNRESOLVED) then
            .ok (.UNRESOLVED, s3)
          else
            .ok (.INVALID, s3)
    else if (vals1.headD (.val (.bool true))).isPyFalse then
      if re then
        .error (.contractViolationError ("Violation `" ++ n.DBC_name ++ "`"))
      else
        .ok (.INVALID, s1)
    else
      .ok (.VALID, s1)

/-- The store built by the statements `n == q; m == n; m == 5; q == 3` on
three fresh `Delayed` objects `q`, `n`, `m` (identities 0, 1, 2): each
`==` appends its right operand to the left node's asserted values. -/
def crossRefStore : Store :=
  [(0, ⟨"q", none, false, [.val (.nat 3)], []⟩),
   (1, ⟨"n", none, false, [.ref 0], []⟩),
   (2, ⟨"m", none, false, [.ref 1, .val (.nat 5)], []⟩)]

/-! Helper lemmas about the environment operations. -/

theorem envLookup_envInsert_self (env : Env) (k : String) (v : Val) :
    envLookup (envInsert env k v) k = some v := by
  induction env with
  | nil => simp [envInsert, envLookup]
  | cons p rest ih =>
    by_cases h : p.1 == k
    · simp [envInsert, h, envLookup]
    · simp [envInsert, h, envLookup, ih]

theorem envLookup_envInsert_ne (env : Env) (k k2 : String) (v : Val)
    (h : k2 ≠ k) :
    envLookup (envInsert env k v) k2 = envLookup env k2 := by
  have h2 : k ≠ k2 := Ne.symm h
  induction env with
  | nil => simp [envInsert, envLookup, h2]
  | cons p rest ih =>
    by_cases hp : p.1 = k
    · simp [envInsert, hp, envLookup, h2]
    · simp only [envInsert, envLookup]
      rw [if_neg (by simpa using hp)]
      by_cases hq : p.1 = k2
      · simp [envLookup, hq]
      · simp only [envLookup]
        rw [if_neg (by simpa using hq), if_neg (by simpa using hq)]
        exact ih

theorem envLookup_envMergeVals_notMem (l : List (String × Val)) (env : Env)
    (k : String) (h : k ∉ l.map Prod.fst) :
    envLookup (envMergeVals env l) k = envLookup env k := by
  induction l generalizing env with
  | nil => simp [envMergeVals]
  | cons p rest ih =>
    simp only [List.map_cons, List.mem_cons] at h
    push_neg at h
    show envLookup (envMergeVals (envInsert env p.1 p.2) rest) k = envLookup env k
    rw [ih _ h.2]
    exact envLookup_envInsert_ne env p.1 k p.2 h.1

theorem mem_postBindings (r : RunResult) (fresh : List String)
    (p : String × Val) (h : p ∈ postBindings r fresh) : p.1 ∈ fresh := by
  induction fresh with
  | nil => simp [postBindings, postSymbols] at h
  | cons f rest ih =>
    have hexp : postBindings r (f :: rest) =
        (match lookupSymVal r.syms f with
          | some w => [(f, w)]
          | none => []) ++ postBindings r rest := by
      cases hv : lookupSymVal r.syms f <;>
        simp [postBindings, postSymbols, hv]
    rw [hexp] at h
    cases hv : lookupSymVal r.syms f with
    | none =>
      rw [hv] at h
      simp only [List.nil_append] at h
      exact List.mem_cons_of_mem _ (ih h)
    | some w =>
      rw [hv] at h
      rcases List.mem_append.mp h with h1 | h2
      · simp only [List.mem_singleton] at h1
        rw [h1]
        exact List.mem_cons_self f rest
      · exact List.mem_cons_of_mem _ (ih h2)

theorem envLookup_envMergeVals_postBindings (r : RunResult) (fresh : List String)
    (env : Env) (n : String) (w : Val) (hnd : fresh.Nodup) (hn : n ∈ fresh)
    (hw : lookupSymVal r.syms n = some w) :
    envLookup (envMergeVals env (postBindings r fresh)) n = some w := by
  induction fresh generalizing env with
  | nil => simp at hn
  | cons f rest ih =>
    simp only [List.nodup_cons] at hnd
    have hexp : postBindings r (f :: rest) =
        (match lookupSymVal r.syms f with
          | some w2 => [(f, w2)]
          | none => []) ++ postBindings r rest := by
      cases hv : lookupSymVal r.syms f <;>
        simp [postBindings, postSymbols, hv]
    rcases List.mem_cons.mp hn with hnf | hnr
    · subst hnf
      rw [hexp, hw]
      show envLookup (envMergeVals (envInsert env n w) (postBindings r rest)) n = some w
      rw [envLookup_envMergeVals_notMem]
      · exact envLookup_envInsert_self env n w
      · intro hmem
        rcases List.mem_map.mp hmem with ⟨p, hp, hp1⟩
        exact hnd.1 (hp1 ▸ mem_postBindings r rest p hp)
    · rw [hexp]
      cases hv : lookupSymVal r.syms f with
      | none => simpa using ih env hnd.2 hnr
      | some w2 =>
        show envLookup (envMergeVals (envInsert env f w2) (postBindings r rest)) n = some w
        exact ih (envInsert env f w2) hnd.2 hnr

/-! Theorems settling the claims. -/

/-- C8: with `evaluate=false` the contract wrapper is the unwrapped
function: same results, same exceptions, for every input — including
inputs whose annotations would otherwise raise. -/
theorem bypass_behaves_identically (reserved : String) (func : ContractFunc)
    (args : List Val) : wrapper reserved false func args = func.call args := by
  simp [wrapper]

/-- C2 counterexample: comparing two `UnresolvedSymbol`s that both have no
bound value does fail — it raises `ContractViolationError` at once instead
of linking the two symbols and deferring the comparison. -/
theorem undefined_symbols_eq_raises_cex :
    UnresolvedSymbol.eq ⟨"a", none⟩ (.sym ⟨"b", none⟩) =
      .error (.contractViolationError "Symbols `a` and `b` undefined") := rfl

/-- C2 (amended): comparing two unbound Symbols raises a
`ContractViolationError` reporting both symbol names as undefined; no link
between the two symbols is created. -/
theorem undefined_symbols_eq_raises (a b : UnresolvedSymbol)
    (ha : a.value = none) (hb : b.value = none) :
    a.eq (.sym b) = .error (.contractViolationError
      ("Symbols `" ++ a.name ++ "` and `" ++ b.name ++ "` undefined")) := by
  simp [UnresolvedSymbol.eq, ha, hb]

/-- C2 witness: the amended statement at two concrete unbound symbols. -/
theorem undefined_symbols_eq_raises_witness :
    (UnresolvedSymbol.mk "p" none).value = none ∧
    UnresolvedSymbol.eq ⟨"p", none⟩ (.sym ⟨"q", none⟩) =
      .error (.contractViolationError "Symbols `p` and `q` undefined") :=
  ⟨rfl, undefined_symbols_eq_raises ⟨"p", none⟩ ⟨"q", none⟩ rfl rfl⟩

/-- C4: comparing a bound Symbol with a concrete value or a bound Symbol
returns the true-like `True` when the values are Python-equal, and raises a
`ContractViolationError` whose message carries the symbol names involved
and both conflicting values when they differ. -/
theorem bound_symbol_comparison (a : UnresolvedSymbol) (v : Val)
    (ha : a.value = some v) :
    (∀ w, pyEq w v = true → a.eq (.val w) = .ok (.pyTrue, a, none)) ∧
    (∀ w, pyEq w v = false → a.eq (.val w) = .error (.contractViolationError
        ("Symbols `" ++ a.name ++ "` and `" ++ pyStr w ++ "` do not match: `"
          ++ pyStr v ++ "` != `" ++ pyStr w ++ "`"))) ∧
    (∀ b w, b.value = some w → pyEq w v = true →
      a.eq (.sym b) = .ok (.pyTrue, a, some b)) ∧
    (∀ b w, b.value = some w → pyEq w v = false →
      a.eq (.sym b) = .error (.contractViolationError
        ("Symbols `" ++ a.name ++ "` and `" ++ b.name ++ "` do not match: `"
          ++ pyStr v ++ "` != `" ++ pyStr w ++ "`"))) := by
  refine ⟨?_, ?_, ?_, ?_⟩
  · intro w hw
    simp [UnresolvedSymbol.eq, ha, hw]
  · intro w hw
    simp [UnresolvedSymbol.eq, ha, hw]
  · intro b w hb hw
    simp [UnresolvedSymbol.eq, ha, hb, hw]
  · intro b w hb hw
    simp [UnresolvedSymbol.eq, ha, hb, hw]

/-- C4 witness: the bound symbol `a = 2` against the equal value `2` and
against the bound symbol `b = 3`. -/
theorem bound_symbol_comparison_witness :
    (UnresolvedSymbol.mk "a" (some (.nat 2))).value = some (.nat 2) ∧
    pyEq (.nat 2) (.nat 2) = true ∧
    UnresolvedSymbol.eq ⟨"a", some (.nat 2)⟩ (.val (.nat 2)) =
      .ok (.pyTrue, ⟨"a", some (.nat 2)⟩, none) ∧
    UnresolvedSymbol.eq ⟨"a", some (.nat 2)⟩ (.sym ⟨"b", some (.nat 3)⟩) =
      .error (.contractViolationError
        "Symbols `a` and `b` do not match: `2` != `3`") :=
  ⟨rfl, rfl,
    (bound_symbol_comparison ⟨"a", some (.nat 2)⟩ (.nat 2) rfl).1 (.nat 2) rfl,
    (bound_symbol_comparison ⟨"a", some (.nat 2)⟩ (.nat 2) rfl).2.2.2
      ⟨"b", some (.nat 3)⟩ (.nat 3) rfl rfl⟩

/-- C1: whenever a predicate attached to a slot is invoked by the engine
(the slot name or the reserved shortcut occurs among its formal names)
and the call on the actual values and fresh symbols is falsy, the engine
raises `ContractViolationError` with the message naming that slot —
whether or not fresh symbols were involved. -/
theorem violated_predicate_names_argument (reserved arg_name : String)
    (env : Env) (m : MetaCallable) (v : Val) (r : RunResult)
    (hinv : arg_name ∈ m.args ∨ reserved ∈ m.args)
    (henv : envLookup env arg_name = some v)
    (hrun : m.run (callArgsOf (envInsert env reserved v) m.args) = .ok r)
    (hfalse : r.truthy = false) :
    evalMeta reserved arg_name env m =
      .error (.contractViolationError
        ("Contract violated for argument: `" ++ arg_name ++ "`")) := by
  simp only [evalMeta, henv]
  rw [if_pos hinv]
  by_cases hu : (freshNames (envInsert env reserved v) m.args).isEmpty
  · simp [hu, hrun, hfalse]
  · simp [hu, hrun, hfalse]

/-- C1 witness: a one-argument predicate on slot `a` returning a falsy
result raises the violation naming `a`. -/
theorem violated_predicate_names_argument_witness :
    ("a" ∈ ["a"] ∨ "x" ∈ ["a"]) ∧
    envLookup [("a", Val.nat 1)] "a" = some (.nat 1) ∧
    evalMeta "x" "a" [("a", .nat 1)]
        ⟨["a"], fun _ => .ok ⟨false, []⟩⟩ =
      .error (.contractViolationError "Contract violated for argument: `a`") :=
  ⟨Or.inl (List.mem_singleton.mpr rfl), rfl,
    violated_predicate_names_argument "x" "a" [("a", .nat 1)]
      ⟨["a"], fun _ => .ok ⟨false, []⟩⟩ (.nat 1) ⟨false, []⟩
      (Or.inl (List.mem_singleton.mpr rfl)) rfl rfl rfl⟩

/-- C10: a callable metadata entry whose formal names contain neither the
slot name nor the reserved identifier is skipped: the environment is
returned unchanged, no error can arise, and the outcome does not depend
on the behaviour of the predicate at all. -/
theorem unrelated_predicate_never_invoked (reserved arg_name : String)
    (env : Env) (m1 m2 : MetaCallable) (hargs : m1.args = m2.args)
    (h1 : arg_name ∉ m1.args) (h2 : reserved ∉ m1.args) :
    evalMeta reserved arg_name env m1 = .ok env ∧
    evalMeta reserved arg_name env m1 = evalMeta reserved arg_name env m2 := by
  have hcond : ¬(arg_name ∈ m1.args ∨ reserved ∈ m1.args) := by
    rintro (h | h)
    · exact h1 h
    · exact h2 h
  have hcond2 : ¬(arg_name ∈ m2.args ∨ reserved ∈ m2.args) := by
    rw [← hargs]
    exact hcond
  constructor
  · simp [evalMeta, hcond]
  · simp [evalMeta, hcond, hcond2]

/-- C10 witness: a predicate over only `b` attached to slot `a` (with
reserved `x`) is ignored even though it would be falsy, and its outcome
equals that of an always-true predicate over the same names. -/
theorem unrelated_predicate_never_invoked_witness :
    ("a" ∉ ["b"] ∧ "x" ∉ ["b"]) ∧
    evalMeta "x" "a" [("a", Val.nat 1)]
        ⟨["b"], fun _ => .ok ⟨false, []⟩⟩ = .ok [("a", Val.nat 1)] ∧
    evalMeta "x" "a" [("a", Val.nat 1)] ⟨["b"], fun _ => .ok ⟨false, []⟩⟩ =
      evalMeta "x" "a" [("a", Val.nat 1)] ⟨["b"], fun _ => .ok ⟨true, []⟩⟩ :=
  ⟨⟨by simp, by simp⟩,
    (unrelated_predicate_never_invoked "x" "a" [("a", Val.nat 1)]
      ⟨["b"], fun _ => .ok ⟨false, []⟩⟩ ⟨["b"], fun _ => .ok ⟨true, []⟩⟩
      rfl (by simp) (by simp)).1,
    (unrelated_predicate_never_invoked "x" "a" [("a", Val.nat 1)]
      ⟨["b"], fun _ => .ok ⟨false, []⟩⟩ ⟨["b"], fun _ => .ok ⟨true, []⟩⟩
      rfl (by simp) (by simp)).2⟩

/-- C5: when a truthy predicate call introduced fresh symbols, the engine
raises `ContractLogicError` ("Not all symbols were resolved") if any fresh
symbol is still unbound after the call; otherwise it succeeds and every
fresh name can afterwards be looked up in the environment at the value its
symbol acquired. -/
theorem fresh_symbols_must_resolve (reserved arg_name : String) (env : Env)
    (m : MetaCallable) (v : Val) (r : RunResult)
    (hinv : arg_name ∈ m.args ∨ reserved ∈ m.args)
    (henv : envLookup env arg_name = some v)
    (hrun : m.run (callArgsOf (envInsert env reserved v) m.args) = .ok r)
    (htrue : r.truthy = true) :
    ((∃ n ∈ freshNames (envInsert env reserved v) m.args,
        lookupSymVal r.syms n = none) →
      evalMeta reserved arg_name env m = .error (.contractLogicError
        ("Not all symbols were resolved `" ++
          symbolsDictRepr
            (postSymbols r (freshNames (envInsert env reserved v) m.args)) ++ "`"))) ∧
    ((freshNames (envInsert env reserved v) m.args ≠ [] ∧
        ∀ n ∈ freshNames (envInsert env reserved v) m.args,
          (lookupSymVal r.syms n).isSome) →
      evalMeta reserved arg_name env m =
        .ok (envMergeVals (envInsert env reserved v)
          (postBindings r (freshNames (envInsert env reserved v) m.args))) ∧
      ∀ n w, n ∈ freshNames (envInsert env reserved v) m.args →
        lookupSymVal r.syms n = some w →
        envLookup (envMergeVals (envInsert env reserved v)
          (postBindings r (freshNames (envInsert env reserved v) m.args))) n =
          some w) := by
  constructor
  · rintro ⟨n, hn, hnone⟩
    have hne : (freshNames (envInsert env reserved v) m.args).isEmpty = false := by
      cases hfe : freshNames (envInsert env reserved v) m.args with
      | nil => simp [hfe] at hn
      | cons a rest => simp
    have hany : (postSymbols r (freshNames (envInsert env reserved v) m.args)).any
        (fun p => p.2.isNone) = true := by
      rw [List.any_eq_true]
      exact ⟨(n, lookupSymVal r.syms n), List.mem_map_of_mem _ hn, by simp [hnone]⟩
    simp only [evalMeta, henv]
    rw [if_pos hinv]
    simp [hne, hrun, htrue, hany]
  · rintro ⟨hne, hall⟩
    have hne2 : (freshNames (envInsert env reserved v) m.args).isEmpty = false := by
      cases hfe : freshNames (envInsert env reserved v) m.args with
      | nil => exact absurd hfe hne
      | cons a rest => simp
    have hany : (postSymbols r (freshNames (envInsert env reserved v) m.args)).any
        (fun p => p.2.isNone) = false := by
      rw [List.any_eq_false]
      rintro p hp
      obtain ⟨n, hn, rfl⟩ := List.mem_map.mp hp
      have hsome := hall n hn
      cases hv2 : lookupSymVal r.syms n with
      | none => rw [hv2] at hsome; simp at hsome
      | some w => simp [hv2]
    constructor
    · simp only [evalMeta, henv]
      rw [if_pos hinv]
      simp [hne2, hrun, htrue, hany]
    · intro n w hn hw
      exact envLookup_envMergeVals_postBindings r _ _ n w
        (List.nodup_dedup _) hn hw

/-- C5 witness: the predicate over `a` and fresh `m` binds `m := 5`, so
evaluation succeeds and `m` is afterwards in the environment. -/
theorem fresh_symbols_must_resolve_witness :
    envLookup (envMergeVals (envInsert [("a", Val.nat 1)] "x" (.nat 1))
        (postBindings ⟨true, [("m", some (.nat 5))]⟩
          (freshNames (envInsert [("a", Val.nat 1)] "x" (.nat 1)) ["a", "m"]))) "m" =
      some (.nat 5) ∧
    evalMeta "x" "a" [("a", Val.nat 1)]
        ⟨["a", "m"], fun _ => .ok ⟨true, [("m", some (.nat 5))]⟩⟩ =
      .ok [("a", Val.nat 1), ("x", Val.nat 1), ("m", Val.nat 5)] := by
  have h := (fresh_symbols_must_resolve "x" "a" [("a", Val.nat 1)]
      ⟨["a", "m"], fun _ => .ok ⟨true, [("m", some (.nat 5))]⟩⟩ (.nat 1)
      ⟨true, [("m", some (.nat 5))]⟩
      (Or.inl (by simp)) rfl rfl rfl).2
      (by constructor
          · simp [freshNames, envInsert, envLookup]
          · intro n hn
            simp [freshNames, envInsert, envLookup] at hn
            simp [hn, lookupSymVal])
  refine ⟨h.2 "m" (.nat 5) ?_ ?_, ?_⟩
  · simp [freshNames, envInsert, envLookup]
  · rfl
  · rw [h.1]
    rfl

/-- C6 counterexample: a childless node that is not terminal and whose
single agreed asserted value is the boolean `False` resolves `INVALID`,
not `VALID` as the claim states for non-terminal childless nodes. -/
theorem childless_nonterminal_false_cex :
    (Delayed.mk "t" none false [.val (.bool false)] []).DBC_terminal = false ∧
    valuesAgree [.val (.bool false)] = true ∧
    (Delayed.mk "t" none false [.val (.bool false)] []).DBC_check false =
      .ok (.INVALID, Delayed.mk "t" none false [.val (.bool false)] []) :=
  ⟨rfl, rfl, rfl⟩

/-- C6 (amended): a childless node whose dependencies are settled and
whose asserted values agree resolves `VALID` exactly when its first stored
value is not the boolean `False` — regardless of the terminal flag, which
the childless branch of `DBC_check` never consults. -/
theorem childless_node_verdict (name : String) (term : Option Val)
    (tl : Bool) (values : List DEntry)
    (hpend : values.any DEntry.isPendingNode = false)
    (hset : (term.isNone && values.isEmpty) = false)
    (hagree : valuesAgree (valuesAfterTerm term values) = true) :
    (Delayed.mk name term tl values []).DBC_check false =
      .ok ((if ((valuesAfterTerm term values).headD (.val (.bool true))).isPyFalse
              then .INVALID else .VALID),
           Delayed.mk name term tl (valuesAfterTerm term values) []) := by
  simp only [Delayed.DBC_check, hpend, hset, hagree]
  simp
  split <;> rename_i hh <;> simp [hh]

/-- C6 witness: the amended statement on a non-terminal childless node
with the single agreed value `5` (`VALID`) at concrete input. -/
theorem childless_node_verdict_witness :
    ([DEntry.val (Val.nat 5)].any DEntry.isPendingNode = false ∧
      ((none : Option Val).isNone && [DEntry.val (Val.nat 5)].isEmpty) = false ∧
      valuesAgree (valuesAfterTerm none [DEntry.val (Val.nat 5)]) = true) ∧
    (Delayed.mk "t" none false [.val (.nat 5)] []).DBC_check false =
      .ok (.VALID, Delayed.mk "t" none false [.val (.nat 5)] []) := by
  refine ⟨⟨rfl, rfl, rfl⟩, ?_⟩
  have h := childless_node_verdict "t" none false [.val (.nat 5)] rfl rfl rfl
  simpa [valuesAfterTerm, DEntry.isPyFalse] using h

/-- C7 counterexample: a non-terminal node with one child whose only child
resolves `VALID` but whose own asserted values disagree resolves
`INVALID`, contradicting the claim that a node with children is `VALID`
iff every child is `VALID`. -/
theorem parent_invalid_despite_valid_child_cex :
    (Delayed.mk "c" (some (.nat 1)) false [] []).DBC_check false =
      .ok (.VALID, Delayed.mk "c" (some (.nat 1)) false [.val (.nat 1)] []) ∧
    (Delayed.mk "p" none false [.val (.nat 1), .val (.nat 2)]
        [Delayed.mk "c" (some (.nat 1)) false [] []]).DBC_check false =
      .ok (.INVALID,
        Delayed.mk "p" none false [.val (.nat 1), .val (.nat 2)]
          [Delayed.mk "c" (some (.nat 1)) false [] []]) :=
  ⟨rfl, rfl⟩

/-- C7 (amended): for a node with children whose dependencies are settled
and whose own asserted values agree, the terminal flag makes children a
definition error (`LogicError`); otherwise the verdict is `VALID` iff all
children check `VALID`, `UNRESOLVED` if some child checks `UNRESOLVED`,
and `INVALID` otherwise. -/
theorem node_with_children_verdict (name : String) (term : Option Val)
    (values : List DEntry) (children : List Delayed) (re : Bool)
    (hpend : values.any DEntry.isPendingNode = false)
    (hset : (term.isNone && values.isEmpty) = false)
    (hagree : valuesAgree (valuesAfterTerm term values) = true)
    (hch : children.isEmpty = false) :
    (Delayed.mk name term true values children).DBC_check re =
      .error (.logicError
        "Please dont compare teminals! `\x7bself.DBC_name\x7d`: \x7bself.DBC_values\x7d") ∧
    (∀ rs children2, DBC_checkList children re = .ok (rs, children2) →
      (Delayed.mk name term false values children).DBC_check re =
        .ok ((if rs.all (· == .VALID) then .VALID
              else if rs.any (· == .UNRESOLVED) then .UNRESOLVED
              else .INVALID),
             Delayed.mk name term false (valuesAfterTerm term values) children2)) := by
  constructor
  · simp [Delayed.DBC_check, hpend, hset, hagree, hch]
  · intro rs children2 hlist
    by_cases hall : rs.all (· == .VALID)
    · simp [Delayed.DBC_check, hpend, hset, hagree, hch, hlist, hall]
    · by_cases hany : rs.any (· == .UNRESOLVED)
      · simp [Delayed.DBC_check, hpend, hset, hagree, hch, hlist, hall, hany]
      · simp [Delayed.DBC_check, hpend, hset, hagree, hch, hlist, hall, hany]

/-- C7 witness: the amended statement on a terminal node with a child
(definition error) and on a non-terminal node with one `VALID` child. -/
theorem node_with_children_verdict_witness :
    (Delayed.mk "p" (some (.nat 1)) true []
        [Delayed.mk "c" (some (.nat 1)) false [] []]).DBC_check false =
      .error (.logicError
        "Please dont compare teminals! `\x7bself.DBC_name\x7d`: \x7bself.DBC_values\x7d") ∧
    (Delayed.mk "p" (some (.nat 1)) false []
        [Delayed.mk "c" (some (.nat 1)) false [] []]).DBC_check false =
      .ok (.VALID, Delayed.mk "p" (some (.nat 1)) false [.val (.nat 1)]
        [Delayed.mk "c" (some (.nat 1)) false [.val (.nat 1)] []]) := by
  have h := node_with_children_verdict "p" (some (.nat 1)) []
    [Delayed.mk "c" (some (.nat 1)) false [] []] false rfl rfl rfl rfl
  refine ⟨h.1, ?_⟩
  have h2 := h.2 [.VALID] [Delayed.mk "c" (some (.nat 1)) false [.val (.nat 1)] []] rfl
  simpa [valuesAfterTerm] using h2

/-! Lemmas relating the resolver loop to iterated check passes. -/

theorem resolveAux_ok_iff_settled (re : Bool) :
    ∀ (fuel : Nat) (l : List Delayed) (b : Bool),
      resolveAux re l fuel = .ok b →
      ∃ k, k < fuel ∧ ∃ rs vs2, iterateChecks re l k = .ok (rs, vs2) ∧
        rs.all (· ≠ .UNRESOLVED) = true ∧ b = rs.all (· == .VALID) := by
  intro fuel
  induction fuel with
  | zero => intro l b h; simp [resolveAux] at h
  | succ n ih =>
    intro l b h
    simp only [resolveAux] at h
    cases hc : DBC_checkList l re with
    | error e => rw [hc] at h; exact absurd h (by simp)
    | ok p =>
      obtain ⟨rs, vs2⟩ := p
      rw [hc] at h
      simp only at h
      by_cases hs : rs.all (· ≠ .UNRESOLVED) = true
      · rw [if_pos hs] at h
        refine ⟨0, Nat.succ_pos n, rs, vs2, ?_, hs, ?_⟩
        · simpa [iterateChecks] using hc
        · exact (Except.ok.inj h).symm
      · rw [if_neg hs] at h
        obtain ⟨k, hk, rs2, vs3, hit, hset, hb⟩ := ih vs2 b h
        refine ⟨k + 1, Nat.succ_lt_succ hk, rs2, vs3, ?_, hset, hb⟩
        simpa [iterateChecks, hc] using hit

theorem resolveAux_error_of_unsettled (re : Bool) :
    ∀ (fuel : Nat) (l : List Delayed),
      (∀ k, k < fuel → ∃ rs vs2, iterateChecks re l k = .ok (rs, vs2) ∧
        rs.any (· == .UNRESOLVED) = true) →
      resolveAux re l fuel = .error (.logicError "colud not resolve all variables") := by
  intro fuel
  induction fuel with
  | zero => intro l _; rfl
  | succ n ih =>
    intro l h
    obtain ⟨rs, vs2, h0, hany⟩ := h 0 (Nat.succ_pos n)
    have hc : DBC_checkList l re = .ok (rs, vs2) := by
      simpa [iterateChecks] using h0
    have hs : rs.all (· ≠ .UNRESOLVED) = false := by
      rw [List.all_eq_false]
      rw [List.any_eq_true] at hany
      obtain ⟨x, hx, hxe⟩ := hany
      exact ⟨x, hx, by simpa using hxe⟩
    simp only [resolveAux, hc, hs]
    simp
    exact ih vs2 (fun k hk => by
      have := h (k + 1) (Nat.succ_lt_succ hk)
      simpa [iterateChecks, hc] using this)

/-- C3 counterexample: the cap error raised for a node set that never
settles is the constant message "colud not resolve all variables"; the
error for a set with entirely different node names is the very same
value, so the error does not name the unresolved nodes. -/
theorem cap_error_ignores_node_names_cex :
    resolve [Delayed.mk "m" none false
        [.node (Delayed.mk "n" none false [] [])] []] true =
      .error (.logicError "colud not resolve all variables") ∧
    resolve [Delayed.mk "completely" none false
        [.node (Delayed.mk "different" none false [] [])] []] true =
      resolve [Delayed.mk "m" none false
        [.node (Delayed.mk "n" none false [] [])] []] true :=
  ⟨rfl, rfl⟩

/-- C3 (amended): the resolver performs up to 99 check passes (loop
bound constant 100); if every pass within the cap still reports an
`UNRESOLVED` node it raises the definition error with the fixed message
"colud not resolve all variables" (which does not name the unresolved
nodes); otherwise it returns at the first settled pass, reporting success
exactly when every node resolved `VALID`. -/
theorem resolve_cap_and_success (vars : List Delayed) (re : Bool) :
    (∀ b, resolve vars re = .ok b →
      ∃ k, k ≤ 98 ∧ ∃ rs vs2, iterateChecks re vars k = .ok (rs, vs2) ∧
        rs.all (· ≠ .UNRESOLVED) = true ∧ b = rs.all (· == .VALID)) ∧
    ((∀ k, k ≤ 98 → ∃ rs vs2, iterateChecks re vars k = .ok (rs, vs2) ∧
        rs.any (· == .UNRESOLVED) = true) →
      resolve vars re = .error (.logicError "colud not resolve all variables")) := by
  constructor
  · intro b h
    obtain ⟨k, hk, rest⟩ := resolveAux_ok_iff_settled re 99 vars b h
    exact ⟨k, Nat.lt_succ_iff.mp hk, rest⟩
  · intro h
    exact resolveAux_error_of_unsettled re 99 vars
      (fun k hk => h k (Nat.lt_succ_iff.mp hk))

/-- C3 witness: the success direction of the amended statement applied to
a concrete node set that settles `VALID` on the first pass. -/
theorem resolve_cap_and_success_witness :
    resolve [Delayed.mk "t" (some (.nat 1)) false [] []] true = .ok true ∧
    ∃ k, k ≤ 98 ∧ ∃ rs vs2,
      iterateChecks true [Delayed.mk "t" (some (.nat 1)) false [] []] k =
        .ok (rs, vs2) ∧
      rs.all (· ≠ .UNRESOLVED) = true ∧ true = rs.all (· == .VALID) :=
  ⟨rfl, (resolve_cap_and_success [Delayed.mk "t" (some (.nat 1)) false [] []]
    true).1 true rfl⟩

/-! Helper lemmas about the heap operations. -/

theorem storeGet_storeSet_self (s : Store) (id : NodeId) (n n2 : HNode)
    (h : storeGet s id = some n) :
    storeGet (storeSet s id n2) id = some n2 := by
  induction s with
  | nil => simp [storeGet] at h
  | cons p rest ih =>
    by_cases hp : p.1 = id
    · simp [storeSet, hp, storeGet]
    · simp only [storeGet, storeSet] at h ⊢
      rw [if_neg (by simpa using hp)] at h
      rw [if_neg (by simpa using hp), storeGet, if_neg (by simpa using hp)]
      exact ih h

theorem storeGet_storeSet_ne (s : Store) (id j : NodeId) (n2 : HNode)
    (h : j ≠ id) :
    storeGet (storeSet s id n2) j = storeGet s j := by
  induction s with
  | nil => simp [storeSet, storeGet]
  | cons p rest ih =>
    by_cases hp : p.1 = id
    · have hne : ¬ p.1 = j := fun hh => h (hh.symm.trans hp)
      simp only [storeSet]
      rw [if_pos (by simpa using hp)]
      simp only [storeGet]
      rw [if_neg (by simpa using hne), if_neg (by simpa using hne)]
    · simp only [storeSet]
      rw [if_neg (by simpa using hp)]
      simp only [storeGet]
      by_cases hq : p.1 = j
      · rw [if_pos (by simpa using hq), if_pos (by simpa using hq)]
      · rw [if_neg (by simpa using hq), if_neg (by simpa using hq)]
        exact ih

theorem appendValue_of_get_none (s : Store) (id : NodeId) (e : HEntry)
    (h : storeGet s id = none) : appendValue s id e = s := by
  simp [appendValue, h]

theorem storeGet_appendValue_self (s : Store) (id : NodeId) (n : HNode)
    (e : HEntry) (h : storeGet s id = some n) :
    storeGet (appendValue s id e) id =
      some { n with DBC_values := n.DBC_values ++ [e] } := by
  simp only [appendValue, h]
  exact storeGet_storeSet_self s id n _ h

theorem storeGet_appendValue_ne (s : Store) (id j : NodeId) (e : HEntry)
    (h : j ≠ id) :
    storeGet (appendValue s id e) j = storeGet s j := by
  simp only [appendValue]
  cases hg : storeGet s id with
  | none => rfl
  | some n => exact storeGet_storeSet_ne s id j _ h

theorem refFree_get (s : Store) (id : NodeId) (n : HNode)
    (hfree : refFreeStore s = true) (h : storeGet s id = some n) :
    n.valuesRefFree = true := by
  induction s with
  | nil => simp [storeGet] at h
  | cons p rest ih =>
    simp only [refFreeStore, List.all_cons, Bool.and_eq_true] at hfree
    simp only [storeGet] at h
    by_cases hp : p.1 = id
    · rw [if_pos (by simpa using hp)] at h
      cases h
      exact hfree.1
    · rw [if_neg (by simpa using hp)] at h
      exact ih hfree.2 h

theorem refFree_storeSet (s : Store) (id : NodeId) (n2 : HNode)
    (hfree : refFreeStore s = true) (h2 : n2.valuesRefFree = true) :
    refFreeStore (storeSet s id n2) = true := by
  induction s with
  | nil => simp [storeSet, refFreeStore]
  | cons p rest ih =>
    simp only [refFreeStore, List.all_cons, Bool.and_eq_true] at hfree
    by_cases hp : p.1 = id
    · simp only [storeSet]
      rw [if_pos (by simpa using hp)]
      simp only [refFreeStore, List.all_cons, Bool.and_eq_true]
      exact ⟨h2, hfree.2⟩
    · simp only [storeSet]
      rw [if_neg (by simpa using hp)]
      simp only [refFreeStore, List.all_cons, Bool.and_eq_true]
      exact ⟨hfree.1, ih hfree.2⟩

theorem refFree_appendValue_val (s : Store) (id : NodeId) (v : Val)
    (hfree : refFreeStore s = true) :
    refFreeStore (appendValue s id (.val v)) = true := by
  simp only [appendValue]
  cases hg : storeGet s id with
  | none => exact hfree
  | some n =>
    refine refFree_storeSet s id _ hfree ?_
    have := refFree_get s id n hfree hg
    simp only [HNode.valuesRefFree, List.all_append, List.all_cons,
      Bool.and_eq_true] at this ⊢
    exact ⟨this, by simp [HEntry.isVal]⟩

theorem nodeEvolved_refl (n : HNode) : nodeEvolved n n := by
  refine ⟨rfl, rfl, rfl, rfl, ?_⟩
  cases ht : n.DBC_term with
  | none => exact Or.inl ⟨rfl, rfl⟩
  | some t => exact Or.inr ⟨t, 0, rfl, by simp⟩

theorem nodeEvolved_trans (a b c : HNode)
    (h1 : nodeEvolved a b) (h2 : nodeEvolved b c) : nodeEvolved a c := by
  obtain ⟨e1, e2, e3, e4, h1v⟩ := h1
  obtain ⟨f1, f2, f3, f4, h2v⟩ := h2
  refine ⟨f1.trans e1, f2.trans e2, f3.trans e3, f4.trans e4, ?_⟩
  rcases h1v with ⟨ht, hv⟩ | ⟨t, k, ht, hv⟩
  · rcases h2v with ⟨ht2, hv2⟩ | ⟨t2, k2, ht2, hv2⟩
    · exact Or.inl ⟨ht, by rw [hv2, hv]⟩
    · rw [e2, ht] at ht2
      cases ht2
  · rcases h2v with ⟨ht2, hv2⟩ | ⟨t2, k2, ht2, hv2⟩
    · rw [e2, ht] at ht2
      cases ht2
    · rw [e2, ht] at ht2
      cases ht2
      refine Or.inr ⟨t, k + k2, ht, ?_⟩
      rw [hv2, hv, List.append_assoc, ← List.replicate_add]

theorem storeEvolved_refl (s : Store) : storeEvolved s s :=
  fun _ => ⟨fun h => h, fun n h => ⟨n, h, nodeEvolved_refl n⟩⟩

theorem storeEvolved_trans (a b c : Store)
    (h1 : storeEvolved a b) (h2 : storeEvolved b c) : storeEvolved a c := by
  intro id
  refine ⟨fun h => (h2 id).1 ((h1 id).1 h), fun n h => ?_⟩
  obtain ⟨n2, hg2, he2⟩ := (h1 id).2 n h
  obtain ⟨n3, hg3, he3⟩ := (h2 id).2 n2 hg2
  exact ⟨n3, hg3, nodeEvolved_trans n n2 n3 he2 he3⟩

theorem storeEvolved_appendTerm (s : Store) (id : NodeId) (n : HNode)
    (t : Val) (hg : storeGet s id = some n) (ht : n.DBC_term = some t) :
    storeEvolved s (appendValue s id (.val t)) := by
  intro j
  constructor
  · intro hn
    by_cases hj : j = id
    · rw [hj, hg] at hn
      cases hn
    · rw [storeGet_appendValue_ne s id j _ hj]
      exact hn
  · intro nj hj
    by_cases hji : j = id
    · subst hji
      rw [hg] at hj
      cases hj
      refine ⟨_, storeGet_appendValue_self s j n _ hg, ?_⟩
      exact ⟨rfl, rfl, rfl, rfl, Or.inr ⟨t, 1, ht, by simp⟩⟩
    · rw [storeGet_appendValue_ne s id j _ hji]
      exact ⟨nj, hj, nodeEvolved_refl nj⟩

theorem storeEvolved_appendTerm_parallel (s t : Store) (id : NodeId)
    (n : HNode) (tv : Val) (hev : storeEvolved s t)
    (hg : storeGet s id = some n) (ht : n.DBC_term = some tv) :
    storeEvolved (appendValue s id (.val tv)) (appendValue t id (.val tv)) := by
  obtain ⟨n2, hg2, he2⟩ := (hev id).2 n hg
  intro j
  constructor
  · intro hn
    by_cases hj : j = id
    · subst hj
      rw [storeGet_appendValue_self s j n _ hg] at hn
      cases hn
    · rw [storeGet_appendValue_ne s id j _ hj] at hn
      rw [storeGet_appendValue_ne t id j _ hj]
      exact (hev j).1 hn
  · intro nj hj
    by_cases hji : j = id
    · subst hji
      rw [storeGet_appendValue_self s j n _ hg] at hj
      cases hj
      refine ⟨_, storeGet_appendValue_self t j n2 _ hg2, ?_⟩
      obtain ⟨e1, e2, e3, e4, hv⟩ := he2
      refine ⟨e1, e2, e3, e4, ?_⟩
      rcases hv with ⟨hnone, _⟩ | ⟨t2, k, hsome, hv⟩
      · rw [hnone] at ht
        cases ht
      · rw [hsome] at ht
        cases ht
        refine Or.inr ⟨tv, k, hsome, ?_⟩
        simp only [hv]
        rw [List.append_assoc, List.append_assoc]
        congr 1
        rw [← List.replicate_succ', List.replicate_succ]
        simp
    · rw [storeGet_appendValue_ne s id j _ hji] at hj
      rw [storeGet_appendValue_ne t id j _ hji]
      obtain ⟨nj2, hgj2, hej2⟩ := (hev j).2 nj hj
      exact ⟨nj2, hgj2, hej2⟩

theorem pending_false_of_plain (s : Store) (l : List HEntry)
    (h : l.all HEntry.isVal = true) : l.any (pendingEntry s) = false := by
  rw [List.any_eq_false]
  intro e he
  have := List.all_eq_true.mp h e he
  cases e with
  | val v => simp [pendingEntry]
  | ref j => simp [HEntry.isVal] at this

theorem map_mappedEntry_of_plain (s : Store) (l : List HEntry)
    (h : l.all HEntry.isVal = true) : l.map (mappedEntry s) = l := by
  induction l with
  | nil => rfl
  | cons e rest ih =>
    simp only [List.all_cons, Bool.and_eq_true] at h
    cases e with
    | val v => simp [mappedEntry, ih h.2]
    | ref j => simp [HEntry.isVal] at h

theorem agreeLoop_plain (s : Store) (v0 : HEntry) (l : List HEntry)
    (hl : l.all HEntry.isVal = true) (hv : v0.isVal = true) :
    agreeLoop s v0 l = (l.all (fun i => hplainEq i v0), s) := by
  induction l generalizing s with
  | nil => rfl
  | cons e rest ih =>
    simp only [List.all_cons, Bool.and_eq_true] at hl
    cases e with
    | ref j => simp [HEntry.isVal] at hl
    | val w =>
      cases v0 with
      | ref j0 => simp [HEntry.isVal] at hv
      | val u =>
        simp only [agreeLoop, agreeStep]
        cases hq : pyEq w u with
        | true => simp [ih _ hl.2, hplainEq, hq]
        | false => simp [hplainEq, hq]

theorem plain_append_val (l : List HEntry) (v : Val)
    (h : l.all HEntry.isVal = true) :
    (l ++ [HEntry.val v]).all HEntry.isVal = true := by
  simp [List.all_append, h, HEntry.isVal]

/-- On a ref-free heap, one step of `HDBC_check` computes its normal
form `refFreeCheckForm`. -/
theorem HDBC_check_refFree_eq (fuel : Nat) (s : Store) (id : NodeId)
    (re : Bool) (n : HNode) (hfree : refFreeStore s = true)
    (hg : storeGet s id = some n) :
    HDBC_check (fuel + 1) s id re = refFreeCheckForm fuel s id re n := by
  have hvals : n.DBC_values.all HEntry.isVal = true := refFree_get s id n hfree hg
  simp only [HDBC_check, refFreeCheckForm, hg,
    pending_false_of_plain s n.DBC_values hvals, Bool.false_eq_true, if_false]
  cases hguard : (n.DBC_term.isNone && n.DBC_values.isEmpty) with
  | true => simp
  | false =>
    simp only [Bool.false_eq_true, if_false]
    cases hterm : n.DBC_term with
    | some t =>
      have hg1 : storeGet (appendValue s id (.val t)) id =
          some { n with DBC_values := n.DBC_values ++ [HEntry.val t] } :=
        storeGet_appendValue_self s id n _ hg
      have hplain1 : (n.DBC_values ++ [HEntry.val t]).all HEntry.isVal = true :=
        plain_append_val _ _ hvals
      simp only [hg1, map_mappedEntry_of_plain _ _ hplain1]
      cases hvv : n.DBC_values ++ [HEntry.val t] with
      | nil => simp at hvv
      | cons v0 vs =>
        have hv0 : v0.isVal = true := by
          have := List.all_eq_true.mp hplain1 v0 (hvv ▸ List.mem_cons_self _ _)
          exact this
        have hloop := agreeLoop_plain (appendValue s id (.val t)) v0 (v0 :: vs)
          (hvv ▸ hplain1) hv0
        simp [hg1, hvv, hloop, plainAgree]
    | none =>
      simp only [List.append_nil, hg, map_mappedEntry_of_plain _ _ hvals]
      cases hvv : n.DBC_values with
      | nil =>
        rw [hterm, hvv] at hguard
        simp at hguard
      | cons v0 vs =>
        have hv0 : v0.isVal = true :=
          List.all_eq_true.mp hvals v0 (hvv ▸ List.mem_cons_self _ _)
        have hloop := agreeLoop_plain s v0 (v0 :: vs) (hvv ▸ hvals) hv0
        simp [hg, hvv, hloop, plainAgree]

theorem all_replicate_true_of (p : HEntry → Bool) (e : HEntry) (k : Nat)
    (h : p e = true) : (List.replicate k e).all p = true := by
  induction k with
  | zero => rfl
  | succ m ih => simp [List.replicate_succ, h, ih]

theorem plainAgree_replicate (vs : List HEntry) (k : Nat) (e : HEntry) :
    plainAgree ((vs ++ List.replicate k e) ++ [e]) = plainAgree (vs ++ [e]) := by
  cases vs with
  | nil =>
    simp only [List.nil_append]
    cases k with
    | zero => simp
    | succ m =>
      rw [List.replicate_succ, List.cons_append]
      simp only [plainAgree, List.all_cons, List.all_append, List.all_cons,
        List.all_nil]
      cases he : hplainEq e e with
      | true => simp [he, all_replicate_true_of _ _ m he]
      | false => simp [he]
  | cons a as =>
    simp only [List.cons_append, plainAgree, List.all_cons, List.all_append,
      List.all_cons, List.all_nil]
    cases he : hplainEq e a with
    | true => simp [he, all_replicate_true_of _ _ k he]
    | false => simp [he]

theorem headD_append_replicate (vs : List HEntry) (k : Nat) (e z : HEntry) :
    ((vs ++ List.replicate k e) ++ [e]).headD z = (vs ++ [e]).headD z := by
  cases vs with
  | nil =>
    cases k with
    | zero => rfl
    | succ m => simp [List.replicate_succ]
  | cons a as => simp

theorem checkChildren_evolves_generic
    (c : Store → NodeId → Except Err (TenaryReturn × Store))
    (hc : ∀ s id r s2, refFreeStore s = true → c s id = .ok (r, s2) →
      storeEvolved s s2 ∧ refFreeStore s2 = true) :
    ∀ (l : List NodeId) (s : Store) (rs : List TenaryReturn) (s2 : Store),
      refFreeStore s = true → HDBC_checkChildren c s l = .ok (rs, s2) →
      storeEvolved s s2 ∧ refFreeStore s2 = true := by
  intro l
  induction l with
  | nil =>
    intro s rs s2 hfree h
    simp only [HDBC_checkChildren] at h
    obtain ⟨-, h2⟩ : [] = rs ∧ s = s2 := by simpa using h
    subst h2
    exact ⟨storeEvolved_refl s, hfree⟩
  | cons id rest ih =>
    intro s rs s2 hfree h
    simp only [HDBC_checkChildren] at h
    cases hcall : c s id with
    | error e => rw [hcall] at h; simp at h
    | ok p =>
      obtain ⟨r, s1⟩ := p
      rw [hcall] at h
      dsimp only at h
      cases hrest : HDBC_checkChildren c s1 rest with
      | error e => rw [hrest] at h; simp at h
      | ok q =>
        obtain ⟨rs0, s2b⟩ := q
        rw [hrest] at h
        dsimp only at h
        obtain ⟨-, h2⟩ : r :: rs0 = rs ∧ s2b = s2 := by simpa using h
        subst h2
        obtain ⟨hev1, hfree1⟩ := hc s id r s1 hfree hcall
        obtain ⟨hev2, hfree2⟩ := ih s1 rs0 s2b hfree1 hrest
        exact ⟨storeEvolved_trans s s1 s2b hev1 hev2, hfree2⟩

theorem checkChildren_stable_generic
    (c : Store → NodeId → Except Err (TenaryReturn × Store))
    (hc : ∀ s t id r s2, refFreeStore s = true → refFreeStore t = true →
      storeEvolved s t → c s id = .ok (r, s2) →
      ∃ t2, c t id = .ok (r, t2) ∧ storeEvolved s2 t2 ∧
        refFreeStore s2 = true ∧ refFreeStore t2 = true) :
    ∀ (l : List NodeId) (s t : Store) (rs : List TenaryReturn) (s2 : Store),
      refFreeStore s = true → refFreeStore t = true → storeEvolved s t →
      HDBC_checkChildren c s l = .ok (rs, s2) →
      ∃ t2, HDBC_checkChildren c t l = .ok (rs, t2) ∧ storeEvolved s2 t2 ∧
        refFreeStore s2 = true ∧ refFreeStore t2 = true := by
  intro l
  induction l with
  | nil =>
    intro s t rs s2 hfs hft hev h
    simp only [HDBC_checkChildren] at h
    obtain ⟨h1, h2⟩ : [] = rs ∧ s = s2 := by simpa using h
    subst h1
    subst h2
    exact ⟨t, rfl, hev, hfs, hft⟩
  | cons id rest ih =>
    intro s t rs s2 hfs hft hev h
    simp only [HDBC_checkChildren] at h
    cases hcall : c s id with
    | error e => rw [hcall] at h; simp at h
    | ok p =>
      obtain ⟨r, s1⟩ := p
      rw [hcall] at h
      dsimp only at h
      cases hrest : HDBC_checkChildren c s1 rest with
      | error e => rw [hrest] at h; simp at h
      | ok q =>
        obtain ⟨rs0, s2b⟩ := q
        rw [hrest] at h
        dsimp only at h
        obtain ⟨h1, h2⟩ : r :: rs0 = rs ∧ s2b = s2 := by simpa using h
        subst h1
        subst h2
        obtain ⟨t1, ht1, hev1, hfs1, hft1⟩ := hc s t id r s1 hfs hft hev hcall
        obtain ⟨t2, ht2, hev2, hfs2, hft2⟩ :=
          ih s1 t1 rs0 s2b hfs1 hft1 hev1 hrest
        exact ⟨t2, by simp [HDBC_checkChildren, ht1, ht2], hev2, hfs2, hft2⟩

/-- On a ref-free heap, a successful check only appends term values: the
resulting heap is an evolution of the entry heap and stays ref-free. -/
theorem HDBC_check_evolves :
    ∀ (fuel : Nat) (s : Store) (id : NodeId) (re : Bool) (r : TenaryReturn)
      (s2 : Store), refFreeStore s = true →
      HDBC_check fuel s id re = .ok (r, s2) →
      storeEvolved s s2 ∧ refFreeStore s2 = true := by
  intro fuel
  induction fuel with
  | zero => intro s id re r s2 _ h; simp [HDBC_check] at h
  | succ m ih =>
    intro s id re r s2 hfree h
    cases hg : storeGet s id with
    | none => simp [HDBC_check, hg] at h
    | some n =>
      rw [HDBC_check_refFree_eq m s id re n hfree hg] at h
      cases hterm : n.DBC_term with
      | some t =>
        have hs1 : storeEvolved s (appendValue s id (.val t)) ∧
            refFreeStore (appendValue s id (.val t)) = true :=
          ⟨storeEvolved_appendTerm s id n t hg hterm,
            refFree_appendValue_val s id t hfree⟩
        simp only [refFreeCheckForm, hterm, Option.isNone_some,
          Bool.false_and, Bool.false_eq_true, if_false] at h
        by_cases hag : plainAgree (n.DBC_values ++ [HEntry.val t]) = true
        · simp only [hag, Bool.not_true, Bool.false_eq_true, if_false] at h
          by_cases hch : n.DBC_children.isEmpty = true
          · simp only [hch, Bool.not_true, Bool.false_eq_true, if_false] at h
            by_cases hd : ((n.DBC_values ++ [HEntry.val t]).headD
                (.val (.bool true))).isPyFalse = true
            · simp only [hd, if_true] at h
              cases re with
              | true => simp at h
              | false =>
                obtain ⟨-, h2⟩ : TenaryReturn.INVALID = r ∧
                    appendValue s id (.val t) = s2 := by simpa using h
                subst h2
                exact hs1
            · simp only [hd, Bool.false_eq_true, if_false] at h
              obtain ⟨-, h2⟩ : TenaryReturn.VALID = r ∧
                  appendValue s id (.val t) = s2 := by simpa using h
              subst h2
              exact hs1
          · simp only [Bool.not_eq_true] at hch
            simp only [hch, Bool.not_false, if_true] at h
            by_cases htl : n.DBC_terminal = true
            · simp [htl] at h
            · simp only [Bool.not_eq_true] at htl
              simp only [htl, Bool.false_eq_true, if_false] at h
              cases hcl : HDBC_checkChildren
                  (fun s2 j => HDBC_check m s2 j re)
                  (appendValue s id (.val t)) n.DBC_children with
              | error e => rw [hcl] at h; simp at h
              | ok q =>
                obtain ⟨returns, s3⟩ := q
                rw [hcl] at h
                dsimp only at h
                obtain ⟨hev2, hfree2⟩ := checkChildren_evolves_generic
                  (fun s2 j => HDBC_check m s2 j re)
                  (fun s id r s2 hf hh => ih s id re r s2 hf hh)
                  n.DBC_children (appendValue s id (.val t)) returns s3
                  hs1.2 hcl
                have hs3 : storeEvolved s s3 ∧ refFreeStore s3 = true :=
                  ⟨storeEvolved_trans _ _ _ hs1.1 hev2, hfree2⟩
                split at h <;> [skip; split at h] <;>
                  · obtain ⟨-, h2⟩ := Prod.mk.injEq .. ▸ Except.ok.inj h
                    subst h2
                    exact hs3
        · simp only [Bool.not_eq_true] at hag
          simp only [hag, Bool.not_false, if_true] at h
          cases re with
          | true => simp at h
          | false =>
            obtain ⟨-, h2⟩ : TenaryReturn.INVALID = r ∧
                appendValue s id (.val t) = s2 := by simpa using h
            subst h2
            exact hs1
      | none =>
        simp only [refFreeCheckForm, hterm, Option.isNone_none,
          Bool.true_and, List.append_nil] at h
        by_cases hempty : n.DBC_values.isEmpty = true
        · simp [hempty] at h
        · simp only [Bool.not_eq_true] at hempty
          simp only [hempty, Bool.false_eq_true, if_false] at h
          by_cases hag : plainAgree n.DBC_values = true
          · simp only [hag, Bool.not_true, Bool.false_eq_true, if_false] at h
            by_cases hch : n.DBC_children.isEmpty = true
            · simp only [hch, Bool.not_true, Bool.false_eq_true, if_false] at h
              by_cases hd : (n.DBC_values.headD (.val (.bool true))).isPyFalse = true
              · simp only [hd, if_true] at h
                cases re with
                | true => simp at h
                | false =>
                  obtain ⟨-, h2⟩ : TenaryReturn.INVALID = r ∧ s = s2 := by
                    simpa using h
                  subst h2
                  exact ⟨storeEvolved_refl s, hfree⟩
              · simp only [hd, Bool.false_eq_true, if_false] at h
                obtain ⟨-, h2⟩ : TenaryReturn.VALID = r ∧ s = s2 := by
                  simpa using h
                subst h2
                exact ⟨storeEvolved_refl s, hfree⟩
            · simp only [Bool.not_eq_true] at hch
              simp only [hch, Bool.not_false, if_true] at h
              by_cases htl : n.DBC_terminal = true
              · simp [htl] at h
              · simp only [Bool.not_eq_true] at htl
                simp only [htl, Bool.false_eq_true, if_false] at h
                cases hcl : HDBC_checkChildren
                    (fun s2 j => HDBC_check m s2 j re) s n.DBC_children with
                | error e => rw [hcl] at h; simp at h
                | ok q =>
                  obtain ⟨returns, s3⟩ := q
                  rw [hcl] at h
                  dsimp only at h
                  obtain ⟨hev2, hfree2⟩ := checkChildren_evolves_generic
                    (fun s2 j => HDBC_check m s2 j re)
                    (fun s id r s2 hf hh => ih s id re r s2 hf hh)
                    n.DBC_children s returns s3 hfree hcl
                  split at h <;> [skip; split at h] <;>
                    · obtain ⟨-, h2⟩ := Prod.mk.injEq .. ▸ Except.ok.inj h
                      subst h2
                      exact ⟨hev2, hfree2⟩
          · simp only [Bool.not_eq_true] at hag
            simp only [hag, Bool.not_false, if_true] at h
            cases re with
            | true => simp at h
            | false =>
              obtain ⟨-, h2⟩ : TenaryReturn.INVALID = r ∧ s = s2 := by
                simpa using h
              subst h2
              exact ⟨storeEvolved_refl s, hfree⟩

/-- On ref-free heaps, checking is insensitive to term-append evolution:
running the same check on any evolved heap yields the same verdict, and
the two result heaps are again in the evolution relation. -/
theorem HDBC_check_stable_refFree :
    ∀ (fuel : Nat) (s t : Store) (id : NodeId) (re : Bool)
      (r : TenaryReturn) (s2 : Store), refFreeStore s = true →
      refFreeStore t = true → storeEvolved s t →
      HDBC_check fuel s id re = .ok (r, s2) →
      ∃ t2, HDBC_check fuel t id re = .ok (r, t2) ∧ storeEvolved s2 t2 ∧
        refFreeStore s2 = true ∧ refFreeStore t2 = true := by
  intro fuel
  induction fuel with
  | zero => intro s t id re r s2 _ _ _ h; simp [HDBC_check] at h
  | succ m ih =>
    intro s t id re r s2 hfs hft hev h
    cases hg : storeGet s id with
    | none => simp [HDBC_check, hg] at h
    | some n =>
      obtain ⟨n2, hg2, hne⟩ := (hev id).2 n hg
      obtain ⟨e1, e2, e3, e4, hval⟩ := hne
      rw [HDBC_check_refFree_eq m s id re n hfs hg] at h
      rw [HDBC_check_refFree_eq m t id re n2 hft hg2]
      cases hterm : n.DBC_term with
      | some tv =>
        rcases hval with ⟨hnone, -⟩ | ⟨t0, k, hsome, hv⟩
        · rw [hnone] at hterm; cases hterm
        · have ht0 : t0 = tv := by
            rw [hsome] at hterm
            exact Option.some.inj hterm
          subst ht0
          have hfs1 : refFreeStore (appendValue s id (.val t0)) = true :=
            refFree_appendValue_val s id t0 hfs
          have hft1 : refFreeStore (appendValue t id (.val t0)) = true :=
            refFree_appendValue_val t id t0 hft
          have hev1 : storeEvolved (appendValue s id (.val t0))
              (appendValue t id (.val t0)) :=
            storeEvolved_appendTerm_parallel s t id n t0 hev hg hsome
          simp only [refFreeCheckForm, hsome, Option.isNone_some,
            Bool.false_and, Bool.false_eq_true, if_false] at h
          simp only [refFreeCheckForm, e1, e2, e3, e4, hv, hsome,
            Option.isNone_some, Bool.false_and, Bool.false_eq_true, if_false,
            plainAgree_replicate, headD_append_replicate]
          by_cases hag : plainAgree (n.DBC_values ++ [HEntry.val t0]) = true
          · simp only [hag, Bool.not_true, Bool.false_eq_true, if_false] at h ⊢
            by_cases hch : n.DBC_children.isEmpty = true
            · simp only [hch, Bool.not_true, Bool.false_eq_true, if_false] at h ⊢
              by_cases hd : ((n.DBC_values ++ [HEntry.val t0]).headD
                  (.val (.bool true))).isPyFalse = true
              · simp only [hd, if_true] at h ⊢
                cases re with
                | true => simp at h
                | false =>
                  obtain ⟨h1, h2⟩ : TenaryReturn.INVALID = r ∧
                      appendValue s id (.val t0) = s2 := by simpa using h
                  subst h1
                  subst h2
                  exact ⟨appendValue t id (.val t0), rfl, hev1, hfs1, hft1⟩
              · simp only [hd, Bool.false_eq_true, if_false] at h ⊢
                obtain ⟨h1, h2⟩ : TenaryReturn.VALID = r ∧
                    appendValue s id (.val t0) = s2 := by simpa using h
                subst h1
                subst h2
                exact ⟨appendValue t id (.val t0), rfl, hev1, hfs1, hft1⟩
            · simp only [Bool.not_eq_true] at hch
              simp only [hch, Bool.not_false, if_true] at h ⊢
              by_cases htl : n.DBC_terminal = true
              · simp [htl] at h
              · simp only [Bool.not_eq_true] at htl
                simp only [htl, Bool.false_eq_true, if_false] at h ⊢
                cases hcl : HDBC_checkChildren
                    (fun s2 j => HDBC_check m s2 j re)
                    (appendValue s id (.val t0)) n.DBC_children with
                | error e => rw [hcl] at h; simp at h
                | ok q =>
                  obtain ⟨returns, s3⟩ := q
                  rw [hcl] at h
                  dsimp only at h
                  obtain ⟨t3, hcl2, hev3, hfs3, hft3⟩ :=
                    checkChildren_stable_generic
                      (fun s2 j => HDBC_check m s2 j re)
                      (fun s t id r s2 hf hf2 he hh =>
                        ih s t id re r s2 hf hf2 he hh)
                      n.DBC_children (appendValue s id (.val t0))
                      (appendValue t id (.val t0)) returns s3 hfs1 hft1 hev1 hcl
                  rw [hcl2]
                  dsimp only
                  split at h <;> rename_i hcond
                  · obtain ⟨h1, h2⟩ := Prod.mk.injEq .. ▸ Except.ok.inj h
                    subst h1
                    subst h2
                    rw [if_pos hcond]
                    exact ⟨t3, rfl, hev3, hfs3, hft3⟩
                  · rw [if_neg hcond]
                    split at h <;> rename_i hcond2
                    · obtain ⟨h1, h2⟩ := Prod.mk.injEq .. ▸ Except.ok.inj h
                      subst h1
                      subst h2
                      rw [if_pos hcond2]
                      exact ⟨t3, rfl, hev3, hfs3, hft3⟩
                    · obtain ⟨h1, h2⟩ := Prod.mk.injEq .. ▸ Except.ok.inj h
                      subst h1
                      subst h2
                      rw [if_neg hcond2]
                      exact ⟨t3, rfl, hev3, hfs3, hft3⟩
          · simp only [Bool.not_eq_true] at hag
            simp only [hag, Bool.not_false, if_true] at h ⊢
            cases re with
            | true => simp at h
            | false =>
              obtain ⟨h1, h2⟩ : TenaryReturn.INVALID = r ∧
                  appendValue s id (.val t0) = s2 := by simpa using h
              subst h1
              subst h2
              exact ⟨appendValue t id (.val t0), rfl, hev1, hfs1, hft1⟩
      | none =>
        rcases hval with ⟨-, hv⟩ | ⟨t0, k, hsome, hv⟩
        · simp only [refFreeCheckForm, hterm, Option.isNone_none,
            Bool.true_and, List.append_nil] at h
          simp only [refFreeCheckForm, e1, e2, e3, e4, hv, hterm,
            Option.isNone_none, Bool.true_and, List.append_nil]
          by_cases hempty : n.DBC_values.isEmpty = true
          · simp [hempty] at h
          · simp only [Bool.not_eq_true] at hempty
            simp only [hempty, Bool.false_eq_true, if_false] at h ⊢
            by_cases hag : plainAgree n.DBC_values = true
            · simp only [hag, Bool.not_true, Bool.false_eq_true, if_false] at h ⊢
              by_cases hch : n.DBC_children.isEmpty = true
              · simp only [hch, Bool.not_true, Bool.false_eq_true, if_false] at h ⊢
                by_cases hd : (n.DBC_values.headD
                    (.val (.bool true))).isPyFalse = true
                · simp only [hd, if_true] at h ⊢
                  cases re with
                  | true => simp at h
                  | false =>
                    obtain ⟨h1, h2⟩ : TenaryReturn.INVALID = r ∧ s = s2 := by
                      simpa using h
                    subst h1
                    subst h2
                    exact ⟨t, rfl, hev, hfs, hft⟩
                · simp only [hd, Bool.false_eq_true, if_false] at h ⊢
                  obtain ⟨h1, h2⟩ : TenaryReturn.VALID = r ∧ s = s2 := by
                    simpa using h
                  subst h1
                  subst h2
                  exact ⟨t, rfl, hev, hfs, hft⟩
              · simp only [Bool.not_eq_true] at hch
                simp only [hch, Bool.not_false, if_true] at h ⊢
                by_cases htl : n.DBC_terminal = true
                · simp [htl] at h
                · simp only [Bool.not_eq_true] at htl
                  simp only [htl, Bool.false_eq_true, if_false] at h ⊢
                  cases hcl : HDBC_checkChildren
                      (fun s2 j => HDBC_check m s2 j re) s n.DBC_children with
                  | error e => rw [hcl] at h; simp at h
                  | ok q =>
                    obtain ⟨returns, s3⟩ := q
                    rw [hcl] at h
                    dsimp only at h
                    obtain ⟨t3, hcl2, hev3, hfs3, hft3⟩ :=
                      checkChildren_stable_generic
                        (fun s2 j => HDBC_check m s2 j re)
                        (fun s t id r s2 hf hf2 he hh =>
                          ih s t id re r s2 hf hf2 he hh)
                        n.DBC_children s t returns s3 hfs hft hev hcl
                    rw [hcl2]
                    dsimp only
                    split at h <;> rename_i hcond
                    · obtain ⟨h1, h2⟩ := Prod.mk.injEq .. ▸ Except.ok.inj h
                      subst h1
                      subst h2
                      rw [if_pos hcond]
                      exact ⟨t3, rfl, hev3, hfs3, hft3⟩
                    · rw [if_neg hcond]
                      split at h <;> rename_i hcond2
                      · obtain ⟨h1, h2⟩ := Prod.mk.injEq .. ▸ Except.ok.inj h
                        subst h1
                        subst h2
                        rw [if_pos hcond2]
                        exact ⟨t3, rfl, hev3, hfs3, hft3⟩
                      · obtain ⟨h1, h2⟩ := Prod.mk.injEq .. ▸ Except.ok.inj h
                        subst h1
                        subst h2
                        rw [if_neg hcond2]
                        exact ⟨t3, rfl, hev3, hfs3, hft3⟩
            · simp only [Bool.not_eq_true] at hag
              simp only [hag, Bool.not_false, if_true] at h ⊢
              cases re with
              | true => simp at h
              | false =>
                obtain ⟨h1, h2⟩ : TenaryReturn.INVALID = r ∧ s = s2 := by
                  simpa using h
                subst h1
                subst h2
                exact ⟨t, rfl, hev, hfs, hft⟩
        · rw [hsome] at hterm
          cases hterm

theorem hresolveAux_settled (re : Bool) (fuel k : Nat) (s : Store)
    (roots : List NodeId) (rs : List TenaryReturn) (s2 : Store)
    (h : HDBC_checkList fuel s roots re = .ok (rs, s2))
    (hsb : rs.all (· ≠ .UNRESOLVED) = true) :
    hresolveAux re fuel s roots (k + 1) = .ok (rs.all (· == .VALID), s2) := by
  simp only [hresolveAux, h]
  rw [if_pos hsb]

/-- C9 counterexample: for the cross-referenced node set built by
`n == q; m == n; m == 5; q == 3`, the first check pass settles with every
node `VALID` (none `UNRESOLVED`) and `resolve([q, m])` returns `True` —
yet invoking the resolver a second time on the same (mutated) objects
returns `False` not `True`: during the first agreement check `m`'s
comparisons appended `q` and `5` to the shared node `q`, whose values
then map to `[3, 3, 5]`.  Repeated resolution of an already-settled node
set is not a no-op and does not yield the same tri-state result. -/
theorem resolver_repetition_changes_result_cex :
    Except.map Prod.fst (HDBC_checkList 10 crossRefStore [0, 2] false) =
      .ok [.VALID, .VALID] ∧
    hresolveTwice 10 crossRefStore [0, 2] false = .ok (true, false) :=
  ⟨rfl, rfl⟩

/-- C9 (amended): invoking the Fixpoint Resolver on a node set whose
check pass settles (none `UNRESOLVED`) performs no further passes and
reports success exactly when every node resolved `VALID`.  When no
node's asserted-values list references another `Delayed` — so that the
agreement comparisons never mutate other nodes — invoking the resolver
again on the resulting state repeats the same tri-state results and
returns the same outcome; with cross-references the appends performed by
the agreement comparisons can change later results (see the
counterexample). -/
theorem resolver_idempotent_without_cross_references
    (fuel : Nat) (s : Store) (roots : List NodeId) (re : Bool)
    (rs : List TenaryReturn) (s2 : Store)
    (h : HDBC_checkList fuel s roots re = .ok (rs, s2))
    (hsettled : rs.all (· ≠ .UNRESOLVED) = true)
    (hfree : refFreeStore s = true) :
    hresolve fuel s roots re = .ok (rs.all (· == .VALID), s2) ∧
    ∃ s3, HDBC_checkList fuel s2 roots re = .ok (rs, s3) ∧
      hresolve fuel s2 roots re = .ok (rs.all (· == .VALID), s3) := by
  obtain ⟨hev, hfree2⟩ := checkChildren_evolves_generic
    (fun s4 j => HDBC_check fuel s4 j re)
    (fun s4 id r s5 hf hh => HDBC_check_evolves fuel s4 id re r s5 hf hh)
    roots s rs s2 hfree h
  obtain ⟨s3, h3, -, -, hfree3⟩ := checkChildren_stable_generic
    (fun s4 j => HDBC_check fuel s4 j re)
    (fun s4 t id r s5 hf hf2 he hh =>
      HDBC_check_stable_refFree fuel s4 t id re r s5 hf hf2 he hh)
    roots s s2 rs s2 hfree hfree2 hev h
  refine ⟨hresolveAux_settled re fuel 98 s roots rs s2 h hsettled, s3, h3, ?_⟩
  exact hresolveAux_settled re fuel 98 s2 roots rs s3 h3 hsettled

/-- C9 witness: a concrete ref-free singleton set; the resolver returns
`True` at once, and re-invoking it on the mutated state repeats the
`VALID` verdict and the `True` outcome. -/
theorem resolver_idempotent_without_cross_references_witness :
    refFreeStore [(0, HNode.mk "t" (some (.nat 1)) false [] [])] = true ∧
    hresolve 5 [(0, HNode.mk "t" (some (.nat 1)) false [] [])] [0] false =
      .ok (true, [(0, HNode.mk "t" (some (.nat 1)) false [.val (.nat 1)] [])]) ∧
    ∃ s3,
      HDBC_checkList 5
          [(0, HNode.mk "t" (some (.nat 1)) false [.val (.nat 1)] [])] [0] false =
        .ok ([.VALID], s3) ∧
      hresolve 5 [(0, HNode.mk "t" (some (.nat 1)) false [.val (.nat 1)] [])]
          [0] false = .ok (true, s3) := by
  have h := resolver_idempotent_without_cross_references 5
    [(0, HNode.mk "t" (some (.nat 1)) false [] [])] [0] false [.VALID]
    [(0, HNode.mk "t" (some (.nat 1)) false [.val (.nat 1)] [])]
    rfl (by decide) rfl
  refine ⟨rfl, h.1, ?_⟩
  obtain ⟨s3, h1, h2⟩ := h.2
  exact ⟨s3, h1, h2⟩

end DesignByContract
